import Mathlib

/-!
Verification of the scram fault-tree engine (file src/indexed_fault_tree.cc):
a shallow embedding of the Boolean preprocessor and the minimal-cut-set
enumerator, with theorems checking the natural-language specification
against the code.

Conventions of the embedding:
- signed integer event indices are ℤ; a magnitude above the top-event
  index names a gate, a smaller magnitude names a basic event;
- the C++ std::set of signed indices becomes either a Finset ℤ or a
  sorted duplicate-free List ℤ where iteration order matters;
- functions of the source that recurse over a mutable graph become
  fueled interpreters returning Option: the value none stands for a run
  that did not complete within the given fuel.
-/

namespace Scram

/-! ### Cut sets

A cut set produced by the enumerator is a SimpleGate of AND type that
carries only basic events and modules (indexed_fault_tree.cc, lines
280-281).  Only those two components are compared by the enumerator, so
the embedding represents a cut set by that pair of sets. -/

structure CutSet where
  basics : Finset ℤ
  modules : Finset ℤ
deriving DecidableEq

def CutSet.order (c : CutSet) : ℕ := c.basics.card + c.modules.card

/-- Componentwise inclusion used by MinimizeCutSets via std::includes
(indexed_fault_tree.cc, lines 986-993). -/
def CutSet.subsetOf (a b : CutSet) : Prop :=
  a.basics ⊆ b.basics ∧ a.modules ⊆ b.modules

instance (a b : CutSet) : Decidable (a.subsetOf b) :=
  inferInstanceAs (Decidable (_ ∧ _))

/-- The one-element test of the collection phase (indexed_fault_tree.cc,
lines 282-285). -/
def CutSet.oneElement (c : CutSet) : Bool :=
  (c.basics.card = 1 && c.modules = (∅ : Finset ℤ)) ||
  (c.modules.card = 1 && c.basics = (∅ : Finset ℤ))

/-- The include test of IndexedFaultTree::MinimizeCutSets: a candidate is
kept when no already accepted lower-order cut set is componentwise
contained in it (indexed_fault_tree.cc, lines 981-997). -/
def keepsAgainst (lower : List CutSet) (c : CutSet) : Bool :=
  lower.all fun m => ! decide (m.subsetOf c)

/-- IndexedFaultTree::MinimizeCutSets (indexed_fault_tree.cc, lines
969-1016).  One level keeps the candidates that pass the include test,
emits those whose order equals the current minimal order, and recurses on
the rest with the emitted sets as the new lower-order list. -/
def minimizeCutSets : ℕ → List CutSet → List CutSet → ℕ → Option (List CutSet)
  | _, [], _, _ => some []
  | 0, _ :: _, _, _ => none
  | fuel + 1, cutSets, lower, minOrder =>
    let included := cutSets.filter (keepsAgainst lower)
    let tempMin := included.filter fun c => decide (c.order = minOrder)
    let temp := included.filter fun c => decide (c.order ≠ minOrder)
    (minimizeCutSets fuel temp tempMin (minOrder + 1)).map fun rest => tempMin ++ rest

/-! ### Iterating an ordered set

A C++ std::set of signed indices is iterated in ascending order.  The
function sortedZ lists the elements of a Finset in that order; it is
written with a plain insertion sort lifted over the multiset quotient so
that it evaluates inside the kernel. -/

def insSortedZ (x : ℤ) : List ℤ → List ℤ
  | [] => [x]
  | y :: ys => if x < y then x :: y :: ys else if x = y then y :: ys else y :: insSortedZ x ys

theorem insSortedZ_nil (x : ℤ) : insSortedZ x [] = [x] := rfl

theorem insSortedZ_cons_lt {x y : ℤ} (ys : List ℤ) (h : x < y) :
    insSortedZ x (y :: ys) = x :: y :: ys := by
  simp [insSortedZ, h]

theorem insSortedZ_cons_eq {x y : ℤ} (ys : List ℤ) (h : x = y) :
    insSortedZ x (y :: ys) = y :: ys := by
  subst h
  simp [insSortedZ]

theorem insSortedZ_cons_gt {x y : ℤ} (ys : List ℤ) (h : y < x) :
    insSortedZ x (y :: ys) = y :: insSortedZ x ys := by
  have h1 : ¬ x < y := by omega
  have h2 : ¬ x = y := by omega
  simp [insSortedZ, h1, h2]

theorem insSortedZ_comm (x y : ℤ) :
    ∀ l, insSortedZ x (insSortedZ y l) = insSortedZ y (insSortedZ x l) := by
  intro l
  induction l with
  | nil =>
    rcases lt_trichotomy x y with h | h | h
    · rw [insSortedZ_nil, insSortedZ_nil, insSortedZ_cons_lt _ h,
        insSortedZ_cons_gt _ h, insSortedZ_nil]
    · subst h; rfl
    · rw [insSortedZ_nil, insSortedZ_nil, insSortedZ_cons_gt _ h,
        insSortedZ_cons_lt _ h, insSortedZ_nil]
  | cons z zs ih =>
    rcases lt_trichotomy y z with hyz | hyz | hyz
    · rcases lt_trichotomy x z with hxz | hxz | hxz
      · rw [insSortedZ_cons_lt _ hyz]
        rcases lt_trichotomy x y with hxy | hxy | hxy
        · rw [insSortedZ_cons_lt _ hxy, insSortedZ_cons_lt _ hxz,
            insSortedZ_cons_gt _ hxy, insSortedZ_cons_lt _ hyz]
        · subst hxy
          rw [insSortedZ_cons_eq _ rfl, insSortedZ_cons_lt _ hxz,
            insSortedZ_cons_eq _ rfl]
        · rw [insSortedZ_cons_gt _ hxy, insSortedZ_cons_lt _ hxz,
            insSortedZ_cons_lt _ hxy]
      · subst hxz
        rw [insSortedZ_cons_lt _ hyz, insSortedZ_cons_gt _ hyz,
          insSortedZ_cons_eq _ rfl, insSortedZ_cons_lt _ hyz]
      · rw [insSortedZ_cons_lt _ hyz, insSortedZ_cons_gt _ (hyz.trans hxz),
          insSortedZ_cons_gt _ hxz, insSortedZ_cons_lt _ hyz]
    · subst hyz
      rcases lt_trichotomy x y with hxy | hxy | hxy
      · rw [insSortedZ_cons_eq _ rfl, insSortedZ_cons_lt _ hxy,
          insSortedZ_cons_gt _ hxy, insSortedZ_cons_eq _ rfl]
      · subst hxy
        rfl
      · rw [insSortedZ_cons_eq _ rfl, insSortedZ_cons_gt _ hxy,
          insSortedZ_cons_eq _ rfl]
    · rcases lt_trichotomy x z with hxz | hxz | hxz
      · rw [insSortedZ_cons_gt _ hyz, insSortedZ_cons_lt _ hxz,
          insSortedZ_cons_lt _ hxz, insSortedZ_cons_gt _ (hxz.trans hyz),
          insSortedZ_cons_gt _ hyz]
      · subst hxz
        rw [insSortedZ_cons_gt _ hyz, insSortedZ_cons_eq _ rfl,
          insSortedZ_cons_eq _ rfl, insSortedZ_cons_gt _ hyz]
      · rw [insSortedZ_cons_gt _ hyz, insSortedZ_cons_gt _ hxz,
          insSortedZ_cons_gt _ hxz, insSortedZ_cons_gt _ hyz, ih]

theorem insSortedZ_fold_perm :
    ∀ {l l' : List ℤ}, l.Perm l' →
      l.foldr insSortedZ [] = l'.foldr insSortedZ [] := by
  intro l l' h
  induction h with
  | nil => rfl
  | cons a _ ih => simp [List.foldr, ih]
  | swap a b l => simp [List.foldr, insSortedZ_comm]
  | trans _ _ ih1 ih2 => rw [ih1, ih2]

/-- Ascending iteration order of a finite set of signed indices. -/
def sortedZ (s : Finset ℤ) : List ℤ :=
  Quot.lift (fun l => l.foldr insSortedZ [])
    (fun _ _ h => insSortedZ_fold_perm h) s.val

theorem mem_insSortedZ {x y : ℤ} {l : List ℤ} :
    x ∈ insSortedZ y l ↔ x = y ∨ x ∈ l := by
  induction l with
  | nil => simp [insSortedZ]
  | cons z zs ih =>
    rcases lt_trichotomy y z with h | h | h
    · rw [insSortedZ_cons_lt _ h]
      simp [eq_comm]
    · subst h
      rw [insSortedZ_cons_eq _ rfl]
      simp only [List.mem_cons]
      tauto
    · rw [insSortedZ_cons_gt _ h]
      simp only [List.mem_cons, ih]
      tauto

theorem mem_foldr_insSortedZ {x : ℤ} : ∀ l : List ℤ, x ∈ l.foldr insSortedZ [] ↔ x ∈ l := by
  intro l
  induction l with
  | nil => simp
  | cons a as ih => simp only [List.foldr, mem_insSortedZ, List.mem_cons, ih]

theorem mem_sortedZ {x : ℤ} {s : Finset ℤ} : x ∈ sortedZ s ↔ x ∈ s := by
  have h : ∀ m : Multiset ℤ,
      (x ∈ Quot.lift (fun l : List ℤ => l.foldr insSortedZ [])
        (fun _ _ h => insSortedZ_fold_perm h) m) ↔ x ∈ m := by
    intro m
    induction m using Quotient.inductionOn with
    | h l => simpa using mem_foldr_insSortedZ l
  exact (h s.val).trans Finset.mem_def.symm

/-! ### Simple gates

SimpleGate is the reduced post-preprocessing gate representation used by
the enumerator: a type (1 = OR, 2 = AND), sets of signed basic-event and
module indices, and child simple gates. -/

inductive SimpleGate : Type where
  | mk (stype : ℕ) (basics : Finset ℤ) (modules : Finset ℤ) (gates : List SimpleGate)

def SimpleGate.stype : SimpleGate → ℕ
  | .mk t _ _ _ => t

def SimpleGate.basics : SimpleGate → Finset ℤ
  | .mk _ b _ _ => b

def SimpleGate.modules : SimpleGate → Finset ℤ
  | .mk _ _ m _ => m

def SimpleGate.gates : SimpleGate → List SimpleGate
  | .mk _ _ _ g => g

/-- Modelled from the spec: SimpleGate::AddBasic of the missing header
indexed_fault_tree.h.  Inserting a signed basic event into an AND
candidate fails when the complementary index is already present, since a
complementary pair collapses a conjunction to an impossible set. -/
def SimpleGate.addBasic (g : SimpleGate) (b : ℤ) : Option SimpleGate :=
  if -b ∈ g.basics then none
  else some (.mk g.stype (insert b g.basics) g.modules g.gates)

/-- Modelled from the spec: SimpleGate::AddModule of the missing header,
symmetric to AddBasic on the module component. -/
def SimpleGate.addModule (g : SimpleGate) (m : ℤ) : Option SimpleGate :=
  if -m ∈ g.modules then none
  else some (.mk g.stype g.basics (insert m g.modules) g.gates)

/-- Modelled from the spec: SimpleGate::MergeGate of the missing header.
It absorbs the basic events, modules and child gates of the other gate,
failing when a complementary pair would appear. -/
def SimpleGate.mergeGate (g other : SimpleGate) : Option SimpleGate :=
  if (∃ b ∈ other.basics, -b ∈ g.basics) ∨ (∃ m ∈ other.modules, -m ∈ g.modules) then
    none
  else
    some (.mk g.stype (g.basics ∪ other.basics) (g.modules ∪ other.modules)
      (g.gates ++ other.gates))

/-- IndexedFaultTree::ExpandAndLayer (indexed_fault_tree.cc, lines
915-967).  An AND gate with OR children is replaced by an OR substitute
whose AND children enumerate the distributive product; candidates prune
on the basic-event count against the order limit when a basic event or a
sub-gate is added, while adding a module is not limited. -/
def expandAndLayer (L : ℕ) (g : SimpleGate) : SimpleGate :=
  let child0 : SimpleGate := .mk 2 g.basics g.modules []
  let step : List SimpleGate → SimpleGate → List SimpleGate := fun children v =>
    children.foldl (fun acc c =>
      let acc := (sortedZ v.basics).foldl (fun acc b =>
        match c.addBasic b with
        | some c' => if c'.basics.card ≤ L then acc ++ [c'] else acc
        | none => acc) acc
      let acc := (sortedZ v.modules).foldl (fun acc m =>
        match c.addModule m with
        | some c' => acc ++ [c']
        | none => acc) acc
      v.gates.foldl (fun acc sub =>
        match c.mergeGate sub with
        | some c' => if c'.basics.card ≤ L then acc ++ [c'] else acc
        | none => acc) acc) []
  .mk 1 ∅ ∅ (g.gates.foldl step [child0])

/-- IndexedFaultTree::ExpandOrLayer (indexed_fault_tree.cc, lines
894-913) restricted to the collected cut sets: each OR child over the
limit is skipped, each child without gate children is emitted as a
terminal candidate, and any other child is expanded through the AND
layer and recursively through its OR layer. -/
def expandOrChildren (L : ℕ) : ℕ → List SimpleGate → Option (List CutSet)
  | _, [] => some []
  | 0, _ :: _ => none
  | fuel + 1, child :: rest =>
    let hd : Option (List CutSet) :=
      if L < child.basics.card then some []
      else if child.gates.isEmpty then some [⟨child.basics, child.modules⟩]
      else expandOrChildren L fuel (expandAndLayer L child).gates
    match hd, expandOrChildren L fuel rest with
    | some a, some b => some (a ++ b)
    | _, _ => none

/-- Insertion into a container deduplicated by the canonical
(basics, modules) pair, the effect of inserting a SimpleGate into a
std::set keyed by SetPtrComp. -/
def insertUnique (c : CutSet) (l : List CutSet) : List CutSet :=
  if c ∈ l then l else l ++ [c]

/-- Deduplicating insertion of a whole run of candidates. -/
def insertAll (l : List CutSet) (acc : List CutSet) : List CutSet :=
  l.foldl (fun a c => insertUnique c a) acc

/-- The one-element collection of the final candidate collection phase of
IndexedFaultTree::FindMcsFromSimpleGate: singleton sets from the direct
basic events and modules of the top gate, together with the one-element
candidates among the generated cut sets (indexed_fault_tree.cc, lines
263-289). -/
def collectOneElementSets (gb gm : Finset ℤ) (cutSets : List CutSet) : List CutSet :=
  insertAll (cutSets.filter fun c => c.oneElement)
    (insertAll ((sortedZ gm).map fun m => ⟨∅, {m}⟩)
      (insertAll ((sortedZ gb).map fun b => ⟨{b}, ∅⟩) []))

/-- The final collection and minimization phase of
IndexedFaultTree::FindMcsFromSimpleGate (indexed_fault_tree.cc, lines
259-318): candidates are deduplicated, one-element sets are separated as
automatically minimal, and the remaining unique sets are minimized
against them starting from order two. -/
def collectMcs (fuel : ℕ) (gb gm : Finset ℤ) (cutSets : List CutSet) :
    Option (List CutSet) :=
  let oneElems := collectOneElementSets gb gm cutSets
  let uniq := insertAll (cutSets.filter fun c => ! c.oneElement) []
  match minimizeCutSets fuel uniq oneElems 2 with
  | some rest => some (oneElems ++ rest)
  | none => none

/-- IndexedFaultTree::FindMcsFromSimpleGate (indexed_fault_tree.cc,
lines 227-318): the guard for a completely empty gate, the special case
of an AND gate without gate children, the AND-layer expansion for an AND
top gate, the OR-layer expansion, and the final collection phase. -/
def findMcsFromSimpleGate (fuel L : ℕ) (g : SimpleGate) : Option (List CutSet) :=
  if g.basics = ∅ ∧ g.gates.isEmpty ∧ g.modules = ∅ then some []
  else if g.stype = 2 then
    if L < g.basics.card then some []
    else if g.gates.isEmpty then some [⟨g.basics, g.modules⟩]
    else
      let g' := expandAndLayer L g
      match expandOrChildren L fuel g'.gates with
      | some cs => collectMcs fuel g'.basics g'.modules cs
      | none => none
  else
    match expandOrChildren L fuel g.gates with
    | some cs => collectMcs fuel g.basics g.modules cs
    | none => none

/-! ### Example gates used to exercise the enumerator -/

/-- An OR top gate over three AND candidates, two of them in a strict
subset relation; the larger one must be minimized away. -/
def exampleTop : SimpleGate :=
  .mk 1 ∅ ∅ [.mk 2 {1, 2} ∅ [], .mk 2 {1, 2, 3} ∅ [], .mk 2 {3} ∅ []]

/-- An AND top gate over one basic event and an OR child holding one
module: expanding it adds the module to a candidate that already fills
the order limit. -/
def exampleModuleTop : SimpleGate :=
  .mk 2 {1} ∅ [.mk 1 ∅ {10} []]

/-! ### Properties of the minimization phase -/

theorem minimizeCutSets_nil (fuel : ℕ) (lower : List CutSet) (mo : ℕ) :
    minimizeCutSets fuel [] lower mo = some [] := by
  cases fuel <;> rfl

theorem minimizeCutSets_zero (c : CutSet) (cl lower : List CutSet) (mo : ℕ) :
    minimizeCutSets 0 (c :: cl) lower mo = none := rfl

theorem minimizeCutSets_succ (fuel : ℕ) (c : CutSet) (cl lower : List CutSet) (mo : ℕ) :
    minimizeCutSets (fuel + 1) (c :: cl) lower mo =
      (minimizeCutSets fuel
          (((c :: cl).filter (keepsAgainst lower)).filter fun d => decide (d.order ≠ mo))
          (((c :: cl).filter (keepsAgainst lower)).filter fun d => decide (d.order = mo))
          (mo + 1)).map
        fun rest =>
          ((c :: cl).filter (keepsAgainst lower)).filter (fun d => decide (d.order = mo)) ++
            rest := rfl

theorem keepsAgainst_iff {lower : List CutSet} {c : CutSet} :
    keepsAgainst lower c = true ↔ ∀ m ∈ lower, ¬ m.subsetOf c := by
  simp [keepsAgainst]

theorem CutSet.subsetOf_order_le {a b : CutSet} (h : a.subsetOf b) : a.order ≤ b.order :=
  Nat.add_le_add (Finset.card_le_card h.1) (Finset.card_le_card h.2)

theorem CutSet.eq_of_subsetOf {a b : CutSet} (h : a.subsetOf b) (hle : b.order ≤ a.order) :
    a = b := by
  have h1 := Finset.card_le_card h.1
  have h2 := Finset.card_le_card h.2
  have e1 : b.basics.card ≤ a.basics.card := by
    unfold CutSet.order at hle; omega
  have e2 : b.modules.card ≤ a.modules.card := by
    unfold CutSet.order at hle; omega
  have hb := Finset.eq_of_subset_of_card_le h.1 e1
  have hm := Finset.eq_of_subset_of_card_le h.2 e2
  cases a
  cases b
  simp_all

theorem CutSet.oneElement_iff {c : CutSet} : c.oneElement = true ↔ c.order = 1 := by
  obtain ⟨b, m⟩ := c
  simp only [oneElement, order, Bool.or_eq_true, Bool.and_eq_true, decide_eq_true_eq]
  constructor
  · rintro (⟨h1, h2⟩ | ⟨h1, h2⟩) <;> simp_all
  · intro h
    have hcases : (b.card = 1 ∧ m.card = 0) ∨ (b.card = 0 ∧ m.card = 1) := by
      simp only at h; omega
    rcases hcases with ⟨h1, h2⟩ | ⟨h1, h2⟩
    · exact Or.inl ⟨h1, Finset.card_eq_zero.mp h2⟩
    · exact Or.inr ⟨h2, Finset.card_eq_zero.mp h1⟩

theorem minimize_mem : ∀ (fuel : ℕ) {cs lower : List CutSet} {mo : ℕ} {out : List CutSet},
    minimizeCutSets fuel cs lower mo = some out →
    ∀ x ∈ out, x ∈ cs ∧ keepsAgainst lower x = true := by
  intro fuel
  induction fuel with
  | zero =>
    intro cs lower mo out h x hx
    cases cs with
    | nil =>
      rw [minimizeCutSets_nil] at h
      injection h with h'
      subst h'
      simp at hx
    | cons c cl =>
      rw [minimizeCutSets_zero] at h
      exact Option.noConfusion h
  | succ fuel ih =>
    intro cs lower mo out h x hx
    cases cs with
    | nil =>
      rw [minimizeCutSets_nil] at h
      injection h with h'
      subst h'
      simp at hx
    | cons c cl =>
      rw [minimizeCutSets_succ] at h
      cases hrec : minimizeCutSets fuel
          (((c :: cl).filter (keepsAgainst lower)).filter fun d => decide (d.order ≠ mo))
          (((c :: cl).filter (keepsAgainst lower)).filter fun d => decide (d.order = mo))
          (mo + 1) with
      | none =>
        rw [hrec] at h
        exact Option.noConfusion h
      | some rest =>
        rw [hrec] at h
        injection h with h'
        subst h'
        rcases List.mem_append.mp hx with hx1 | hx2
        · have h2 := List.mem_filter.mp (List.mem_filter.mp hx1).1
          exact ⟨h2.1, h2.2⟩
        · have hres := ih hrec x hx2
          have h2 := List.mem_filter.mp (List.mem_filter.mp hres.1).1
          exact ⟨h2.1, h2.2⟩

theorem minimize_none_of_order_zero :
    ∀ (fuel : ℕ) {cs lower : List CutSet} {mo : ℕ} {c : CutSet},
    c ∈ cs → c.order = 0 → 1 ≤ mo → (∀ l ∈ lower, 1 ≤ l.order) →
    minimizeCutSets fuel cs lower mo = none := by
  intro fuel
  induction fuel with
  | zero =>
    intro cs lower mo c hc h0 hmo hlower
    cases cs with
    | nil => simp at hc
    | cons a cl => rfl
  | succ fuel ih =>
    intro cs lower mo c hc h0 hmo hlower
    cases cs with
    | nil => simp at hc
    | cons a cl =>
      rw [minimizeCutSets_succ]
      have hkeep : keepsAgainst lower c = true := by
        rw [keepsAgainst_iff]
        intro m hm hsub
        have hord := CutSet.subsetOf_order_le hsub
        have h1 := hlower m hm
        omega
      have hmem : c ∈ ((a :: cl).filter (keepsAgainst lower)).filter
          fun d => decide (d.order ≠ mo) := by
        refine List.mem_filter.mpr ⟨List.mem_filter.mpr ⟨hc, hkeep⟩, ?_⟩
        rw [h0]
        exact decide_eq_true (by omega)
      have hlow' : ∀ l ∈ ((a :: cl).filter (keepsAgainst lower)).filter
          (fun d => decide (d.order = mo)), 1 ≤ l.order := by
        intro l hl
        have h2 := of_decide_eq_true (List.mem_filter.mp hl).2
        omega
      rw [ih hmem h0 (by omega) hlow']
      rfl

theorem minimize_pairwise :
    ∀ (fuel : ℕ) {cs lower : List CutSet} {mo : ℕ} {out : List CutSet},
    minimizeCutSets fuel cs lower mo = some out →
    (∀ c ∈ cs, mo ≤ c.order) → cs.Nodup →
    out.Pairwise fun x y => ¬ x.subsetOf y ∧ ¬ y.subsetOf x := by
  intro fuel
  induction fuel with
  | zero =>
    intro cs lower mo out h hord hnd
    cases cs with
    | nil =>
      rw [minimizeCutSets_nil] at h
      injection h with h'
      subst h'
      exact List.Pairwise.nil
    | cons c cl =>
      rw [minimizeCutSets_zero] at h
      exact Option.noConfusion h
  | succ fuel ih =>
    intro cs lower mo out h hord hnd
    cases cs with
    | nil =>
      rw [minimizeCutSets_nil] at h
      injection h with h'
      subst h'
      exact List.Pairwise.nil
    | cons c cl =>
      rw [minimizeCutSets_succ] at h
      cases hrec : minimizeCutSets fuel
          (((c :: cl).filter (keepsAgainst lower)).filter fun d => decide (d.order ≠ mo))
          (((c :: cl).filter (keepsAgainst lower)).filter fun d => decide (d.order = mo))
          (mo + 1) with
      | none =>
        rw [hrec] at h
        exact Option.noConfusion h
      | some rest =>
        rw [hrec] at h
        injection h with h'
        subst h'
        have hsub_inc : List.Sublist ((c :: cl).filter (keepsAgainst lower)) (c :: cl) :=
          List.filter_sublist _
        have hsub_tm : List.Sublist
            (((c :: cl).filter (keepsAgainst lower)).filter fun d => decide (d.order = mo))
            (c :: cl) := (List.filter_sublist _).trans hsub_inc
        have hsub_temp : List.Sublist
            (((c :: cl).filter (keepsAgainst lower)).filter fun d => decide (d.order ≠ mo))
            (c :: cl) := (List.filter_sublist _).trans hsub_inc
        have htemp_ord : ∀ x ∈ ((c :: cl).filter (keepsAgainst lower)).filter
            (fun d => decide (d.order ≠ mo)), mo + 1 ≤ x.order := by
          intro x hx
          have h1 := List.mem_filter.mp hx
          have h2 := List.mem_filter.mp h1.1
          have h3 := hord x h2.1
          have hne := of_decide_eq_true h1.2
          omega
        refine List.pairwise_append.mpr ⟨?_, ?_, ?_⟩
        · have hndtm : (((c :: cl).filter (keepsAgainst lower)).filter
              fun d => decide (d.order = mo)).Pairwise (· ≠ ·) :=
            List.Pairwise.sublist hsub_tm hnd
          refine hndtm.imp_of_mem ?_
          intro a b ha hb hne
          have ha' : a.order = mo := of_decide_eq_true (List.mem_filter.mp ha).2
          have hb' : b.order = mo := of_decide_eq_true (List.mem_filter.mp hb).2
          constructor
          · intro hsub
            exact hne (CutSet.eq_of_subsetOf hsub (by omega))
          · intro hsub
            exact hne ((CutSet.eq_of_subsetOf hsub (by omega)).symm)
        · exact ih hrec htemp_ord (List.Pairwise.sublist hsub_temp hnd)
        · intro x hx y hy
          have hym := minimize_mem fuel hrec y hy
          have hx' : x.order = mo := of_decide_eq_true (List.mem_filter.mp hx).2
          refine ⟨(keepsAgainst_iff.mp hym.2) x hx, ?_⟩
          intro hsub
          have h1 := CutSet.subsetOf_order_le hsub
          have h2 := htemp_ord y hym.1
          omega

/-! ### Properties of the collection phase -/

theorem mem_insertUnique {x c : CutSet} {l : List CutSet} :
    x ∈ insertUnique c l ↔ x ∈ l ∨ x = c := by
  unfold insertUnique
  split_ifs with h
  · constructor
    · exact Or.inl
    · rintro (hx | rfl)
      · exact hx
      · exact h
  · simp

theorem nodup_insertUnique {c : CutSet} {l : List CutSet} (h : l.Nodup) :
    (insertUnique c l).Nodup := by
  unfold insertUnique
  split_ifs with hc
  · exact h
  · rw [List.nodup_append]
    refine ⟨h, List.nodup_singleton c, ?_⟩
    intro a ha hb
    rw [List.mem_singleton] at hb
    subst hb
    exact hc ha

theorem mem_insertAll {x : CutSet} :
    ∀ {l acc : List CutSet}, x ∈ insertAll l acc ↔ x ∈ acc ∨ x ∈ l := by
  intro l
  induction l with
  | nil => intro acc; simp [insertAll]
  | cons c t ih =>
    intro acc
    show x ∈ insertAll t (insertUnique c acc) ↔ _
    rw [ih, mem_insertUnique]
    simp only [List.mem_cons]
    tauto

theorem nodup_insertAll :
    ∀ {l acc : List CutSet}, acc.Nodup → (insertAll l acc).Nodup := by
  intro l
  induction l with
  | nil => intro acc h; exact h
  | cons c t ih => intro acc h; exact ih (nodup_insertUnique h)

theorem order_of_mem_collectOneElementSets {gb gm : Finset ℤ} {cs : List CutSet} {x : CutSet}
    (hx : x ∈ collectOneElementSets gb gm cs) : x.order = 1 := by
  unfold collectOneElementSets at hx
  rw [mem_insertAll] at hx
  rcases hx with hx | hx
  · rw [mem_insertAll] at hx
    rcases hx with hx | hx
    · rw [mem_insertAll] at hx
      rcases hx with hx | hx
      · simp at hx
      · obtain ⟨b, hb, rfl⟩ := List.mem_map.mp hx
        simp [CutSet.order]
    · obtain ⟨m, hm, rfl⟩ := List.mem_map.mp hx
      simp [CutSet.order]
  · exact CutSet.oneElement_iff.mp (List.mem_filter.mp hx).2

theorem nodup_collectOneElementSets {gb gm : Finset ℤ} {cs : List CutSet} :
    (collectOneElementSets gb gm cs).Nodup :=
  nodup_insertAll (nodup_insertAll (nodup_insertAll List.nodup_nil))

theorem mem_collectOneElementSets_of_oneElement {gb gm : Finset ℤ} {cs : List CutSet}
    {c : CutSet} (hc : c ∈ cs) (h1 : c.oneElement = true) :
    c ∈ collectOneElementSets gb gm cs := by
  unfold collectOneElementSets
  rw [mem_insertAll]
  exact Or.inr (List.mem_filter.mpr ⟨hc, h1⟩)

theorem uniq_order_ge_two {fuel : ℕ} {gb gm : Finset ℤ} {cs rest : List CutSet}
    (hmin : minimizeCutSets fuel (insertAll (cs.filter fun c => ! c.oneElement) [])
      (collectOneElementSets gb gm cs) 2 = some rest) :
    ∀ c ∈ insertAll (cs.filter fun c => ! c.oneElement) [], 2 ≤ c.order := by
  intro c hcu
  have hmemf : c ∈ cs.filter (fun c => ! c.oneElement) := by
    rcases mem_insertAll.mp hcu with h0 | h0
    · simp at h0
    · exact h0
  have hone : c.oneElement = false := by
    have h2 := (List.mem_filter.mp hmemf).2
    simpa using h2
  have hne1 : c.order ≠ 1 := by
    intro he
    rw [← CutSet.oneElement_iff] at he
    rw [hone] at he
    exact Bool.noConfusion he
  have hne0 : c.order ≠ 0 := by
    intro h0
    have hnone := @minimize_none_of_order_zero fuel
      (insertAll (cs.filter fun c => ! c.oneElement) [])
      (collectOneElementSets gb gm cs) 2 c hcu h0 (by omega)
      (fun l hl => by
        have h1 := order_of_mem_collectOneElementSets hl
        omega)
    rw [hnone] at hmin
    exact Option.noConfusion hmin
  omega

theorem collect_pairwise {fuel : ℕ} {gb gm : Finset ℤ} {cs out : List CutSet}
    (h : collectMcs fuel gb gm cs = some out) :
    out.Pairwise fun x y => ¬ x.subsetOf y ∧ ¬ y.subsetOf x := by
  simp only [collectMcs] at h
  cases hmin : minimizeCutSets fuel (insertAll (cs.filter fun c => ! c.oneElement) [])
      (collectOneElementSets gb gm cs) 2 with
  | none =>
    rw [hmin] at h
    exact Option.noConfusion h
  | some rest =>
    rw [hmin] at h
    injection h with h'
    subst h'
    have huniq := uniq_order_ge_two hmin
    refine List.pairwise_append.mpr ⟨?_, ?_, ?_⟩
    · refine (nodup_collectOneElementSets).imp_of_mem ?_
      intro a b ha hb hne
      have ha1 := order_of_mem_collectOneElementSets ha
      have hb1 := order_of_mem_collectOneElementSets hb
      constructor
      · intro hsub
        exact hne (CutSet.eq_of_subsetOf hsub (by omega))
      · intro hsub
        exact hne ((CutSet.eq_of_subsetOf hsub (by omega)).symm)
    · exact minimize_pairwise fuel hmin huniq (nodup_insertAll List.nodup_nil)
    · intro x hx y hy
      have hym := minimize_mem fuel hmin y hy
      refine ⟨(keepsAgainst_iff.mp hym.2) x hx, ?_⟩
      intro hsub
      have h1 := CutSet.subsetOf_order_le hsub
      have hx1 := order_of_mem_collectOneElementSets hx
      have hy2 := huniq y hym.1
      omega

/-! ### The order limit in the expansion -/

theorem expandOrChildren_nil (L fuel : ℕ) : expandOrChildren L fuel [] = some [] := by
  cases fuel <;> rfl

theorem expandOrChildren_zero (L : ℕ) (g : SimpleGate) (rest : List SimpleGate) :
    expandOrChildren L 0 (g :: rest) = none := rfl

theorem expandOrChildren_succ (L fuel : ℕ) (child : SimpleGate) (rest : List SimpleGate) :
    expandOrChildren L (fuel + 1) (child :: rest) =
      match (if L < child.basics.card then some []
             else if child.gates.isEmpty then some [⟨child.basics, child.modules⟩]
             else expandOrChildren L fuel (expandAndLayer L child).gates),
          expandOrChildren L fuel rest with
      | some a, some b => some (a ++ b)
      | _, _ => none := rfl

theorem expandOrChildren_basic_bound (L : ℕ) :
    ∀ (fuel : ℕ) {l : List SimpleGate} {cs : List CutSet},
    expandOrChildren L fuel l = some cs → ∀ c ∈ cs, c.basics.card ≤ L := by
  intro fuel
  induction fuel with
  | zero =>
    intro l cs h c hc
    cases l with
    | nil =>
      rw [expandOrChildren_nil] at h
      injection h with h'
      subst h'
      simp at hc
    | cons g rest =>
      rw [expandOrChildren_zero] at h
      exact Option.noConfusion h
  | succ fuel ih =>
    intro l cs h c hc
    cases l with
    | nil =>
      rw [expandOrChildren_nil] at h
      injection h with h'
      subst h'
      simp at hc
    | cons child rest =>
      rw [expandOrChildren_succ] at h
      by_cases h1 : L < child.basics.card
      · rw [if_pos h1] at h
        cases hr : expandOrChildren L fuel rest with
        | none => rw [hr] at h; exact Option.noConfusion h
        | some b =>
          rw [hr] at h
          injection h with h'
          subst h'
          rw [List.nil_append] at hc
          exact ih hr c hc
      · rw [if_neg h1] at h
        by_cases h2 : child.gates.isEmpty
        · rw [if_pos h2] at h
          cases hr : expandOrChildren L fuel rest with
          | none => rw [hr] at h; exact Option.noConfusion h
          | some b =>
            rw [hr] at h
            injection h with h'
            subst h'
            rcases List.mem_append.mp hc with hc1 | hc2
            · have hce : c = ⟨child.basics, child.modules⟩ := by simpa using hc1
              subst hce
              simpa using not_lt.mp h1
            · exact ih hr c hc2
        · rw [if_neg h2] at h
          cases hin : expandOrChildren L fuel (expandAndLayer L child).gates with
          | none => rw [hin] at h; exact Option.noConfusion h
          | some a =>
            rw [hin] at h
            cases hr : expandOrChildren L fuel rest with
            | none => rw [hr] at h; exact Option.noConfusion h
            | some b =>
              rw [hr] at h
              injection h with h'
              subst h'
              rcases List.mem_append.mp hc with hc1 | hc2
              · exact ih hin c hc1
              · exact ih hr c hc2

theorem collect_basic_bound {fuel L : ℕ} {gb gm : Finset ℤ} {cs out : List CutSet}
    (h : collectMcs fuel gb gm cs = some out) (hL : 1 ≤ L)
    (hcs : ∀ c ∈ cs, c.basics.card ≤ L) : ∀ c ∈ out, c.basics.card ≤ L := by
  simp only [collectMcs] at h
  cases hmin : minimizeCutSets fuel (insertAll (cs.filter fun c => ! c.oneElement) [])
      (collectOneElementSets gb gm cs) 2 with
  | none =>
    rw [hmin] at h
    exact Option.noConfusion h
  | some rest =>
    rw [hmin] at h
    injection h with h'
    subst h'
    intro c hc
    rcases List.mem_append.mp hc with hc1 | hc2
    · have h1 := order_of_mem_collectOneElementSets hc1
      have h2 : c.basics.card ≤ c.order := Nat.le_add_right _ _
      omega
    · have hm := minimize_mem fuel hmin c hc2
      have hmf : c ∈ cs.filter (fun c => ! c.oneElement) := by
        rcases mem_insertAll.mp hm.1 with h0 | h0
        · simp at h0
        · exact h0
      exact hcs c (List.mem_filter.mp hmf).1

/-! ### Claim theorems about the enumerator -/

/-- C1: in the sequence of cut sets returned by the MCS enumerator for a
simple gate, no returned cut set is a subset of any other returned cut
set, where subset means componentwise inclusion of the basic-event set
and the module set. -/
theorem findMcs_pairwise_nonsubset (fuel L : ℕ) (g : SimpleGate) (out : List CutSet)
    (h : findMcsFromSimpleGate fuel L g = some out) :
    out.Pairwise fun x y => ¬ x.subsetOf y ∧ ¬ y.subsetOf x := by
  simp only [findMcsFromSimpleGate] at h
  split_ifs at h with h1 h2 h3 h4
  · injection h with h'
    subst h'
    exact List.Pairwise.nil
  · injection h with h'
    subst h'
    exact List.Pairwise.nil
  · injection h with h'
    subst h'
    simp
  · cases hexp : expandOrChildren L fuel (expandAndLayer L g).gates with
    | none => rw [hexp] at h; exact Option.noConfusion h
    | some cs => rw [hexp] at h; exact collect_pairwise h
  · cases hexp : expandOrChildren L fuel g.gates with
    | none => rw [hexp] at h; exact Option.noConfusion h
    | some cs => rw [hexp] at h; exact collect_pairwise h

/-- Witness for C1: a concrete run in which a superset candidate is
minimized away and the two surviving cut sets are incomparable. -/
theorem findMcs_pairwise_nonsubset_witness :
    findMcsFromSimpleGate 8 5 exampleTop = some [⟨{3}, ∅⟩, ⟨{1, 2}, ∅⟩] ∧
      ([⟨{3}, ∅⟩, ⟨{1, 2}, ∅⟩] : List CutSet).Pairwise
        (fun x y => ¬ x.subsetOf y ∧ ¬ y.subsetOf x) :=
  ⟨by decide, findMcs_pairwise_nonsubset 8 5 exampleTop _ (by decide)⟩

/-- C2 (amended): the expansion prunes candidates by their basic-event
count only, so every cut set returned by the enumerator has at most L
basic events, while modules are not charged against the order limit. -/
theorem findMcs_basics_le_limit (fuel L : ℕ) (g : SimpleGate) (out : List CutSet)
    (hL : 1 ≤ L) (h : findMcsFromSimpleGate fuel L g = some out) :
    ∀ c ∈ out, c.basics.card ≤ L := by
  simp only [findMcsFromSimpleGate] at h
  split_ifs at h with h1 h2 h3 h4
  · injection h with h'
    subst h'
    intro c hc
    simp at hc
  · injection h with h'
    subst h'
    intro c hc
    simp at hc
  · injection h with h'
    subst h'
    intro c hc
    have hce : c = ⟨g.basics, g.modules⟩ := by simpa using hc
    subst hce
    simpa using not_lt.mp h3
  · cases hexp : expandOrChildren L fuel (expandAndLayer L g).gates with
    | none => rw [hexp] at h; exact Option.noConfusion h
    | some cs =>
      rw [hexp] at h
      exact collect_basic_bound h hL (expandOrChildren_basic_bound L fuel hexp)
  · cases hexp : expandOrChildren L fuel g.gates with
    | none => rw [hexp] at h; exact Option.noConfusion h
    | some cs =>
      rw [hexp] at h
      exact collect_basic_bound h hL (expandOrChildren_basic_bound L fuel hexp)

/-- Witness for the amended C2 on a concrete run. -/
theorem findMcs_basics_le_limit_witness :
    (1 ≤ 5) ∧ ∀ c ∈ [(⟨{3}, ∅⟩ : CutSet), ⟨{1, 2}, ∅⟩], c.basics.card ≤ 5 :=
  ⟨by decide, findMcs_basics_le_limit 8 5 exampleTop _ (by decide) (by decide)⟩

/-- Counterexample to C2 as stated: with order limit one, the enumerator
returns a cut set of one basic event and one module, of total size two,
because adding a module during the AND-layer expansion is not checked
against the limit (indexed_fault_tree.cc, line 951). -/
theorem findMcs_order_limit_counterexample :
    findMcsFromSimpleGate 6 1 exampleModuleTop = some [⟨{1}, {10}⟩] ∧
      ¬ (⟨{1}, {10}⟩ : CutSet).order ≤ 1 := by
  decide

/-- C9: a candidate with exactly one basic event and no modules, or
exactly one module and no basic events, is separated into the one-element
collection and appears in the output of the collection phase. -/
theorem collect_one_element_emitted {fuel : ℕ} {gb gm : Finset ℤ} {cs out : List CutSet}
    (h : collectMcs fuel gb gm cs = some out) {c : CutSet} (hc : c ∈ cs)
    (h1 : c.oneElement = true) :
    c ∈ collectOneElementSets gb gm cs ∧ c ∈ out := by
  have hm := @mem_collectOneElementSets_of_oneElement gb gm cs c hc h1
  refine ⟨hm, ?_⟩
  simp only [collectMcs] at h
  cases hmin : minimizeCutSets fuel (insertAll (cs.filter fun c => ! c.oneElement) [])
      (collectOneElementSets gb gm cs) 2 with
  | none =>
    rw [hmin] at h
    exact Option.noConfusion h
  | some rest =>
    rw [hmin] at h
    injection h with h'
    subst h'
    exact List.mem_append.mpr (Or.inl hm)

/-- Witness for C9: a singleton basic-event candidate and a singleton
module candidate both appear in a concrete output. -/
theorem collect_one_element_emitted_witness :
    (⟨{1}, ∅⟩ : CutSet) ∈ collectOneElementSets ∅ ∅ [⟨{1}, ∅⟩, ⟨∅, {7}⟩, ⟨{2, 3}, ∅⟩] ∧
      (⟨{1}, ∅⟩ : CutSet) ∈ [(⟨{1}, ∅⟩ : CutSet), ⟨∅, {7}⟩, ⟨{2, 3}, ∅⟩] :=
  @collect_one_element_emitted 6 ∅ ∅ [⟨{1}, ∅⟩, ⟨∅, {7}⟩, ⟨{2, 3}, ∅⟩]
    [⟨{1}, ∅⟩, ⟨∅, {7}⟩, ⟨{2, 3}, ∅⟩] (by decide) ⟨{1}, ∅⟩ (by decide) (by decide)

/-! ### Indexed gates

An IndexedGate of the preprocessor carries the original string type, the
numeric type used after unrolling (1 = OR, 2 = AND), the vote number of
an ATLEAST gate, a constant state, and the ordered set of signed child
indices.  The class itself lives in the missing header indexed_gate.h;
its operations are modelled from the spec where they are used. -/

inductive GKind where
  | kAnd | kOr | kXor | kAtleast | kNot | kNull | kNand | kNor | kUndef
deriving DecidableEq

inductive GState where
  | normal | nullS | unityS
deriving DecidableEq

structure IGate where
  kind : GKind
  itype : ℕ
  vote : ℕ
  gstate : GState
  children : List ℤ
deriving DecidableEq

/-- The value of a signed index under a valuation of the positive
indices: the sign of an edge negates the value of its magnitude. -/
def lit (v : ℤ → Bool) (c : ℤ) : Bool :=
  if c < 0 then ! v (-c) else v c

/-- Boolean meaning of one gate kind over the values of its children;
the XOR, NOT and NULL connectives are only meaningful at their intended
arities. -/
def evalOp (k : GKind) (vote : ℕ) (vals : List Bool) : Bool :=
  match k with
  | .kOr => vals.any id
  | .kAnd => vals.all id
  | .kXor => match vals with | [x, y] => xor x y | _ => false
  | .kAtleast => decide (vote ≤ (vals.filter id).length)
  | .kNot => match vals with | [x] => !x | _ => false
  | .kNull => match vals with | [x] => x | _ => false
  | .kNand => ! vals.all id
  | .kNor => ! vals.any id
  | .kUndef => false

/-- Boolean meaning of a gate over atoms: children are valued as signed
literals of the valuation. -/
def evalGate (g : IGate) (v : ℤ → Bool) : Bool :=
  evalOp g.kind g.vote (g.children.map (lit v))

/-! ### The indexed fault tree container -/

structure ITree where
  gates : List (ℕ × IGate)
  topIndex : ℕ
  newGateIndex : ℕ
deriving DecidableEq

def ITree.lookup (t : ITree) (i : ℕ) : Option IGate :=
  t.gates.lookup i

/-- In-place modification of the gate stored at an index. -/
def ITree.setGate (t : ITree) (i : ℕ) (g : IGate) : ITree :=
  { t with gates := t.gates.map fun p => if p.1 = i then (i, g) else p }

/-- The first fresh AND gate of the XOR unrolling, carrying the first
child and the negated second child. -/
def xorAux1 (a b : ℤ) : IGate :=
  { kind := .kAnd, itype := 2, vote := 0, gstate := .normal,
    children := insSortedZ (-b) (insSortedZ a []) }

/-- The second fresh AND gate of the XOR unrolling, carrying the negated
first child and the second child. -/
def xorAux2 (a b : ℤ) : IGate :=
  { kind := .kAnd, itype := 2, vote := 0, gstate := .normal,
    children := insSortedZ b (insSortedZ (-a) []) }

/-- The XOR gate re-typed to OR over the two fresh gate indices. -/
def xorRetyped (g : IGate) (i1 i2 : ℕ) : IGate :=
  { g with kind := .kOr, itype := 1,
           children := insSortedZ (i2 : ℤ) (insSortedZ (i1 : ℤ) []) }

/-- IndexedFaultTree::UnrollXorGate (indexed_fault_tree.cc, lines
424-447): for an XOR gate with children a and b, two fresh AND gates are
created with children (a, negated b) and (negated a, b), and the XOR
gate is re-typed to OR with exactly the two fresh gates as children.  A
gate whose child list does not have exactly two entries trips an
assertion in the source; the model leaves the tree unchanged there. -/
def unrollXorGate (t : ITree) (i : ℕ) : ITree :=
  match t.lookup i with
  | none => t
  | some g =>
    match g.children with
    | [a, b] =>
      let i1 := t.newGateIndex + 1
      let i2 := t.newGateIndex + 2
      { gates := (i1, xorAux1 a b) :: (i2, xorAux2 a b) ::
          (t.setGate i (xorRetyped g i1 i2)).gates,
        topIndex := t.topIndex,
        newGateIndex := i2 }
    | _ => t

/-! ### The constant-propagation rewrite steps

IndexedFaultTree::PropagateConstants applies a polarity table to a gate
with a constant child.  The two table rows named by the claims are
modelled as local gate rewrites exactly as the source performs them. -/

/-- The ATLEAST row for a child fixed TRUE (indexed_fault_tree.cc, lines
599-609): erase the child, decrement the vote number, and re-type the
gate to OR when the vote number reaches one. -/
def atleastUnityStep (g : IGate) (c : ℤ) : IGate :=
  let g' : IGate := { g with children := g.children.erase c, vote := g.vote - 1 }
  if g.vote - 1 = 1 then { g' with kind := .kOr, itype := 1 } else g'

/-- The XOR row for a child fixed TRUE (indexed_fault_tree.cc, lines
589-598): erase the child, re-type the gate to OR, and swap the sign of
the remaining child, making the gate the negation of that child. -/
def xorUnityStep (g : IGate) (c : ℤ) : IGate :=
  let erased := g.children.erase c
  let ch := erased.headI
  { g with kind := .kOr, itype := 1,
           children := insSortedZ (-ch) (erased.erase ch) }

/-- A concrete tree holding one XOR gate over two basic events. -/
def exampleXorTree : ITree :=
  { gates := [(5, { kind := .kXor, itype := 0, vote := 0, gstate := .normal,
                    children := [1, 2] })],
    topIndex := 4,
    newGateIndex := 5 }

/-- A concrete ATLEAST gate with vote number two over three children. -/
def exampleAtleastGate : IGate :=
  { kind := .kAtleast, itype := 0, vote := 2, gstate := .normal, children := [1, 2, 3] }

/-- A concrete XOR gate over two basic events. -/
def exampleXorGate : IGate :=
  { kind := .kXor, itype := 0, vote := 0, gstate := .normal, children := [1, 2] }

/-! ### Literal and insertion lemmas -/

theorem lit_neg (v : ℤ → Bool) {c : ℤ} (hc : c ≠ 0) : lit v (-c) = ! lit v c := by
  unfold lit
  rcases lt_trichotomy c 0 with h | h | h
  · rw [if_neg (by omega), if_pos h, Bool.not_not]
  · exact absurd h hc
  · rw [if_pos (by omega), if_neg (by omega), neg_neg]

theorem all_insSortedZ (p : ℤ → Bool) (x : ℤ) :
    ∀ l, (insSortedZ x l).all p = (p x && l.all p) := by
  intro l
  induction l with
  | nil => simp [insSortedZ]
  | cons z zs ih =>
    rcases lt_trichotomy x z with h | h | h
    · rw [insSortedZ_cons_lt _ h]
      simp
    · subst h
      rw [insSortedZ_cons_eq _ rfl]
      cases hp : p x <;> simp [List.all_cons, hp]
    · rw [insSortedZ_cons_gt _ h]
      simp only [List.all_cons, ih]
      cases hp : p x <;> cases hq : p z <;> simp [hp, hq]

theorem any_eq_atleast_one : ∀ bs : List Bool, bs.any id = decide (1 ≤ (bs.filter id).length) := by
  intro bs
  induction bs with
  | nil => rfl
  | cons x xs ih =>
    cases hx : x <;> simp [List.any_cons, List.filter, hx, ih]

theorem count_true_erase {v : ℤ → Bool} {l : List ℤ} {c : ℤ} (hc : c ∈ l)
    (hv : lit v c = true) :
    ((l.map (lit v)).filter id).length = (((l.erase c).map (lit v)).filter id).length + 1 := by
  have hp : l.Perm (c :: l.erase c) := List.perm_cons_erase hc
  have h2 : ((l.map (lit v)).filter id).length
      = (((c :: l.erase c).map (lit v)).filter id).length :=
    ((hp.map _).filter _).length_eq
  rw [h2]
  simp [List.filter, hv]

/-! ### Lookup lemmas for the tree container -/

theorem lookup_map_set {l : List (ℕ × IGate)} {i : ℕ} {g g' : IGate}
    (hl : l.lookup i = some g) :
    (l.map fun p => if p.1 = i then (i, g') else p).lookup i = some g' := by
  induction l with
  | nil => simp at hl
  | cons p rest ih =>
    obtain ⟨k, v⟩ := p
    simp only [List.map_cons]
    by_cases hk : k = i
    · subst hk
      rw [if_pos rfl]
      simp [List.lookup]
    · rw [if_neg (by simpa using hk)]
      have hne : (i == k) = false := beq_eq_false_iff_ne.mpr fun he => hk he.symm
      simp only [List.lookup, hne] at hl ⊢
      exact ih hl

theorem lookup_setGate_self {t : ITree} {i : ℕ} {g g' : IGate} (hl : t.lookup i = some g) :
    (t.setGate i g').lookup i = some g' :=
  lookup_map_set hl

/-! ### Claim theorems about gate normalization and constant propagation -/

/-- C4: normalizing an XOR gate with children a and b re-types it to an
OR gate over exactly two fresh AND gates carrying (a, negated b) and
(negated a, b), and for every boolean assignment to the children the
rewritten two-level structure evaluates to the original exclusive or. -/
theorem unrollXor_or_of_two_ands (t : ITree) (i : ℕ) (g : IGate) (a b : ℤ)
    (hl : t.lookup i = some g) (hch : g.children = [a, b])
    (hi : i ≤ t.newGateIndex) (ha : a ≠ 0) (hb : b ≠ 0) :
    (unrollXorGate t i).lookup i
        = some (xorRetyped g (t.newGateIndex + 1) (t.newGateIndex + 2)) ∧
    (unrollXorGate t i).lookup (t.newGateIndex + 1) = some (xorAux1 a b) ∧
    (unrollXorGate t i).lookup (t.newGateIndex + 2) = some (xorAux2 a b) ∧
    (xorRetyped g (t.newGateIndex + 1) (t.newGateIndex + 2)).kind = .kOr ∧
    (xorRetyped g (t.newGateIndex + 1) (t.newGateIndex + 2)).itype = 1 ∧
    (xorRetyped g (t.newGateIndex + 1) (t.newGateIndex + 2)).children
        = [((t.newGateIndex + 1 : ℕ) : ℤ), ((t.newGateIndex + 2 : ℕ) : ℤ)] ∧
    (xorAux1 a b).kind = .kAnd ∧ (xorAux2 a b).kind = .kAnd ∧
    (∀ x, x ∈ (xorAux1 a b).children ↔ x = a ∨ x = -b) ∧
    (∀ x, x ∈ (xorAux2 a b).children ↔ x = -a ∨ x = b) ∧
    ∀ v, ((xorAux1 a b).children.all (lit v) || (xorAux2 a b).children.all (lit v))
        = xor (lit v a) (lit v b) := by
  have hun : unrollXorGate t i =
      { gates := (t.newGateIndex + 1, xorAux1 a b) :: (t.newGateIndex + 2, xorAux2 a b) ::
          (t.setGate i (xorRetyped g (t.newGateIndex + 1) (t.newGateIndex + 2))).gates,
        topIndex := t.topIndex,
        newGateIndex := t.newGateIndex + 2 } := by
    simp only [unrollXorGate, hl, hch]
  refine ⟨?_, ?_, ?_, rfl, rfl, ?_, rfl, rfl, ?_, ?_, ?_⟩
  · rw [hun]
    show List.lookup i _ = _
    have h1 : (i == t.newGateIndex + 1) = false := beq_eq_false_iff_ne.mpr (by omega)
    have h2 : (i == t.newGateIndex + 2) = false := beq_eq_false_iff_ne.mpr (by omega)
    simp only [List.lookup, h1, h2]
    exact lookup_setGate_self hl
  · rw [hun]
    show List.lookup _ _ = _
    simp [List.lookup]
  · rw [hun]
    show List.lookup _ _ = _
    have h1 : (t.newGateIndex + 2 == t.newGateIndex + 1) = false :=
      beq_eq_false_iff_ne.mpr (by omega)
    simp [List.lookup, h1]
  · show insSortedZ ((t.newGateIndex + 2 : ℕ) : ℤ)
        (insSortedZ ((t.newGateIndex + 1 : ℕ) : ℤ) []) = _
    rw [insSortedZ_nil, insSortedZ_cons_gt _ (by push_cast; omega), insSortedZ_nil]
  · intro x
    show x ∈ insSortedZ (-b) (insSortedZ a []) ↔ _
    simp only [mem_insSortedZ, List.not_mem_nil, or_false]
    tauto
  · intro x
    show x ∈ insSortedZ b (insSortedZ (-a) []) ↔ _
    simp only [mem_insSortedZ, List.not_mem_nil, or_false]
    tauto
  · intro v
    show ((insSortedZ (-b) (insSortedZ a [])).all (lit v)
        || (insSortedZ b (insSortedZ (-a) [])).all (lit v)) = _
    rw [all_insSortedZ, all_insSortedZ, all_insSortedZ, all_insSortedZ]
    simp only [List.all_nil, Bool.and_true, lit_neg v ha, lit_neg v hb]
    cases lit v a <;> cases lit v b <;> rfl

/-- Witness for C4 on a concrete one-gate tree. -/
theorem unrollXor_or_of_two_ands_witness :
    (unrollXorGate exampleXorTree 5).lookup 5 = some (xorRetyped
        { kind := .kXor, itype := 0, vote := 0, gstate := .normal, children := [1, 2] } 6 7) ∧
    (unrollXorGate exampleXorTree 5).lookup 6 = some (xorAux1 1 2) ∧
    (unrollXorGate exampleXorTree 5).lookup 7 = some (xorAux2 1 2) ∧
    (xorRetyped
        { kind := .kXor, itype := 0, vote := 0, gstate := .normal, children := [1, 2] } 6 7).kind
      = .kOr ∧
    (xorRetyped
        { kind := .kXor, itype := 0, vote := 0, gstate := .normal, children := [1, 2] } 6 7).itype
      = 1 ∧
    (xorRetyped
        { kind := .kXor, itype := 0, vote := 0, gstate := .normal,
          children := [1, 2] } 6 7).children = [(6 : ℤ), (7 : ℤ)] ∧
    (xorAux1 1 2).kind = .kAnd ∧ (xorAux2 1 2).kind = .kAnd ∧
    (∀ x, x ∈ (xorAux1 1 2).children ↔ x = 1 ∨ x = -2) ∧
    (∀ x, x ∈ (xorAux2 1 2).children ↔ x = -1 ∨ x = 2) ∧
    ∀ v, ((xorAux1 1 2).children.all (lit v) || (xorAux2 1 2).children.all (lit v))
        = xor (lit v 1) (lit v 2) :=
  unrollXor_or_of_two_ands exampleXorTree 5 _ 1 2 (by decide) (by decide) (by decide)
    (by decide) (by decide)

/-- C5: for an ATLEAST gate with a child fixed TRUE, the child is erased
and the vote number decremented, the gate becomes OR when the vote
number reaches one, and the result is boolean-equivalent to ATLEAST of
the decremented vote number over the remaining children, hence to the
original gate under the fixed child. -/
theorem atleast_unity_step_correct (g : IGate) (c : ℤ)
    (hk : g.kind = .kAtleast) (hv1 : 1 < g.vote) (hsz : 2 < g.children.length)
    (hc : c ∈ g.children) :
    ((atleastUnityStep g c).children = g.children.erase c ∧
      (atleastUnityStep g c).vote = g.vote - 1 ∧
      (g.vote - 1 = 1 → (atleastUnityStep g c).kind = .kOr) ∧
      (g.vote - 1 ≠ 1 → (atleastUnityStep g c).kind = g.kind)) ∧
    (∀ v, evalGate (atleastUnityStep g c) v
        = evalOp .kAtleast (g.vote - 1) ((g.children.erase c).map (lit v))) ∧
    (∀ v, lit v c = true → evalGate (atleastUnityStep g c) v = evalGate g v) := by
  have hb : ∀ v, evalGate (atleastUnityStep g c) v
      = evalOp .kAtleast (g.vote - 1) ((g.children.erase c).map (lit v)) := by
    intro v
    unfold atleastUnityStep evalGate
    split_ifs with h
    · show evalOp .kOr _ _ = _
      rw [h]
      simp only [evalOp, List.all_eq_true]
      rw [show ((g.children.erase c).map (lit v)).any id
          = decide (1 ≤ (((g.children.erase c).map (lit v)).filter id).length) from
        any_eq_atleast_one _]
    · rw [hk]
  refine ⟨?_, hb, ?_⟩
  · constructor
    · unfold atleastUnityStep
      split_ifs <;> rfl
    constructor
    · unfold atleastUnityStep
      split_ifs <;> rfl
    constructor
    · intro h
      unfold atleastUnityStep
      rw [if_pos h]
    · intro h
      unfold atleastUnityStep
      rw [if_neg h]
  · intro v hv
    rw [hb v]
    unfold evalGate
    rw [hk]
    simp only [evalOp]
    rw [count_true_erase hc hv]
    rw [decide_eq_decide]
    omega

/-- Witness for C5 on a concrete ATLEAST gate. -/
theorem atleast_unity_step_correct_witness :
    ((atleastUnityStep exampleAtleastGate 1).children = [2, 3] ∧
      (atleastUnityStep exampleAtleastGate 1).vote = 1 ∧
      (2 - 1 = 1 → (atleastUnityStep exampleAtleastGate 1).kind = .kOr) ∧
      (2 - 1 ≠ 1 → (atleastUnityStep exampleAtleastGate 1).kind = .kAtleast)) ∧
    (∀ v, evalGate (atleastUnityStep exampleAtleastGate 1) v
        = evalOp .kAtleast 1 ([2, 3].map (lit v))) ∧
    (∀ v, lit v 1 = true →
      evalGate (atleastUnityStep exampleAtleastGate 1) v = evalGate exampleAtleastGate v) :=
  atleast_unity_step_correct exampleAtleastGate 1 (by decide) (by decide) (by decide)
    (by decide)

/-- C6: for an XOR gate one of whose two children is fixed TRUE, the
constant child is erased, the gate becomes an OR over the sign-swapped
remaining child, and for every assignment fixing the constant child the
gate evaluates to the negation of the other child. -/
theorem xor_unity_step_negation (g : IGate) (a b c o : ℤ)
    (hk : g.kind = .kXor) (hch : g.children = [a, b]) (hab : a ≠ b) (ho : o ≠ 0)
    (hco : (c = a ∧ o = b) ∨ (c = b ∧ o = a)) :
    (xorUnityStep g c).kind = .kOr ∧
    (xorUnityStep g c).children = [-o] ∧
    ∀ v, lit v c = true →
      evalGate (xorUnityStep g c) v = ! lit v o ∧
      evalGate (xorUnityStep g c) v = evalGate g v := by
  have hchildren : (xorUnityStep g c).children = [-o] := by
    rcases hco with ⟨rfl, rfl⟩ | ⟨rfl, rfl⟩
    · simp only [xorUnityStep, hch, List.erase_cons_head]
      show insSortedZ (-(([o].headI))) ([o].erase ([o].headI)) = _
      simp [List.headI, List.erase_cons_head, insSortedZ_nil]
    · have hne2 : (o == c) = false := beq_eq_false_iff_ne.mpr hab
      have her : ([o, c] : List ℤ).erase c = [o] := by
        simp [List.erase_cons, hne2]
      simp only [xorUnityStep, hch, her]
      show insSortedZ (-(([o].headI))) ([o].erase ([o].headI)) = _
      simp [List.headI, List.erase_cons_head, insSortedZ_nil]
  have hkind : (xorUnityStep g c).kind = .kOr := by
    unfold xorUnityStep
    rfl
  refine ⟨hkind, hchildren, ?_⟩
  intro v hv
  have heval : evalGate (xorUnityStep g c) v = ! lit v o := by
    unfold evalGate
    rw [hkind, hchildren]
    simp [evalOp, lit_neg v ho]
  refine ⟨heval, ?_⟩
  rw [heval]
  unfold evalGate
  rw [hk, hch]
  rcases hco with ⟨rfl, rfl⟩ | ⟨rfl, rfl⟩
  · simp only [List.map, evalOp, hv]
    cases lit v o <;> rfl
  · simp only [List.map, evalOp, hv]
    cases lit v o <;> rfl

/-- Witness for C6 on a concrete XOR gate. -/
theorem xor_unity_step_negation_witness :
    (xorUnityStep exampleXorGate 1).kind = .kOr ∧
    (xorUnityStep exampleXorGate 1).children = [-2] ∧
    ∀ v, lit v 1 = true →
      evalGate (xorUnityStep exampleXorGate 1) v = ! lit v 2 ∧
      evalGate (xorUnityStep exampleXorGate 1) v = evalGate exampleXorGate v :=
  xor_unity_step_negation exampleXorGate 1 2 1 2 (by decide) (by decide) (by decide)
    (by decide) (Or.inl ⟨rfl, rfl⟩)

/-! ### The constant-propagation interpreter

IndexedFaultTree::PropagateConstants (indexed_fault_tree.cc, lines
497-613) walks the tree depth-first, skipping processed gates, and
rewrites each gate whose child is fixed constant with the polarity
table; every mutation restarts the child iteration at the beginning,
and a gate collapsing to a constant state returns immediately. -/

/-- The OR and ATLEAST rows for a child fixed FALSE: the child is erased
and an ATLEAST gate whose vote number reaches its child count becomes
AND (indexed_fault_tree.cc, lines 548-555 and 568-575). -/
def eraseChildG (g : IGate) (c : ℤ) : IGate :=
  { g with children := g.children.erase c }

/-- The XOR row for a child fixed FALSE (indexed_fault_tree.cc, lines
560-567): erase the child and re-type to OR, a pass-through of the other
child. -/
def xorNullStep (g : IGate) (c : ℤ) : IGate :=
  { g with kind := .kOr, itype := 1, children := g.children.erase c }

/-- The ATLEAST row for a child fixed FALSE (indexed_fault_tree.cc,
lines 568-575). -/
def atleastNullStep (g : IGate) (c : ℤ) : IGate :=
  let g' : IGate := { g with children := g.children.erase c }
  if g'.vote = g'.children.length then { g' with kind := .kAnd, itype := 2 } else g'

/-- One application of the polarity table of PropagateConstants to the
gate at index i whose child c was found constant; the boolean result
tells the caller whether the gate collapsed and the walk of this gate
returns (true) or the child iteration restarts (false).  A gate kind
outside OR, AND, XOR, ATLEAST trips an assertion in the source and
leaves the model stuck. -/
def pconstApply (t : ITree) (i : ℕ) (c : ℤ) (state : Bool) : Option (ITree × Bool) :=
  match t.lookup i with
  | none => none
  | some g =>
    if state then
      match g.kind with
      | .kOr => some (t.setGate i { g with gstate := .unityS }, true)
      | .kAnd =>
        let g' := eraseChildG g c
        if g'.children.isEmpty then
          some (t.setGate i { g' with gstate := .unityS }, true)
        else some (t.setGate i g', false)
      | .kXor => some (t.setGate i (xorUnityStep g c), false)
      | .kAtleast => some (t.setGate i (atleastUnityStep g c), false)
      | _ => none
    else
      match g.kind with
      | .kOr =>
        let g' := eraseChildG g c
        if g'.children.isEmpty then
          some (t.setGate i { g' with gstate := .nullS }, true)
        else some (t.setGate i g', false)
      | .kAnd => some (t.setGate i { g with gstate := .nullS }, true)
      | .kXor => some (t.setGate i (xorNullStep g c), false)
      | .kAtleast => some (t.setGate i (atleastNullStep g c), false)
      | _ => none

/-- The fueled walk of PropagateConstants over the gate at index i from
child position pos.  A gate child is recursed into first (unless already
processed) and then its state is read; a primary child is looked up in
the constant house-event sets, negated by the sign of the edge. -/
def pconstLoop (tH fH : List ℕ) :
    ℕ → ITree → List ℕ → ℕ → ℕ → Option (ITree × List ℕ)
  | 0, _, _, _, _ => none
  | fuel + 1, t, processed, i, pos =>
    match t.lookup i with
    | none => none
    | some g =>
      if pos < g.children.length then
        let c := g.children.getD pos 0
        if t.topIndex < c.natAbs then
          match (if c.natAbs ∈ processed then some (t, processed)
                 else pconstLoop tH fH fuel t (c.natAbs :: processed) c.natAbs 0) with
          | none => none
          | some (t', processed') =>
            match t'.lookup c.natAbs with
            | none => none
            | some cg =>
              match cg.gstate with
              | .normal => pconstLoop tH fH fuel t' processed' i (pos + 1)
              | .nullS =>
                match pconstApply t' i c (decide (c < 0)) with
                | none => none
                | some (t'', true) => some (t'', processed')
                | some (t'', false) => pconstLoop tH fH fuel t'' processed' i 0
              | .unityS =>
                match pconstApply t' i c (decide (0 < c)) with
                | none => none
                | some (t'', true) => some (t'', processed')
                | some (t'', false) => pconstLoop tH fH fuel t'' processed' i 0
        else
          if c.natAbs ∈ fH then
            match pconstApply t i c (decide (c < 0)) with
            | none => none
            | some (t'', true) => some (t'', processed)
            | some (t'', false) => pconstLoop tH fH fuel t'' processed i 0
          else if c.natAbs ∈ tH then
            match pconstApply t i c (decide (0 < c)) with
            | none => none
            | some (t'', true) => some (t'', processed)
            | some (t'', false) => pconstLoop tH fH fuel t'' processed i 0
          else pconstLoop tH fH fuel t processed i (pos + 1)
      else some (t, processed)

/-- The whole-tree entry point of PropagateConstants: the walk starts at
the top gate with the top already marked processed. -/
def pconstTop (tH fH : List ℕ) (fuel : ℕ) (t : ITree) : Option (ITree × List ℕ) :=
  pconstLoop tH fH fuel t [t.topIndex] t.topIndex 0

/-- Modelled from the spec: the analysis driver that calls the
preprocessor and the enumerator is not under src/.  Per the spec it
inspects the state of the top gate after constant propagation: a
collapse to constant false yields an empty cut-set list, a collapse to
constant true yields a single empty cut set, with the two cases swapped
under a negative top sign, and a normal top is handed to the enumerator
instead (here: none). -/
def collapsedTopResult (st : GState) (topSign : ℤ) : Option (List CutSet) :=
  match st with
  | .normal => none
  | .nullS => if 0 < topSign then some [] else some [⟨∅, ∅⟩]
  | .unityS => if 0 < topSign then some [⟨∅, ∅⟩] else some []

/-- A top AND gate over two basic events, one of which will be fixed
false, collapsing the top to constant false. -/
def exampleFalseTop : ITree :=
  { gates := [(5, { kind := .kAnd, itype := 2, vote := 0, gstate := .normal,
                    children := [1, 2] })],
    topIndex := 5,
    newGateIndex := 5 }

/-- A top OR gate over two basic events, one of which will be fixed
true, collapsing the top to constant true. -/
def exampleTrueTop : ITree :=
  { gates := [(5, { kind := .kOr, itype := 1, vote := 0, gstate := .normal,
                    children := [1, 2] })],
    topIndex := 5,
    newGateIndex := 5 }

/-- C8: a run whose constant propagation collapses the top gate is not
an error: the driver turns a null top into an empty cut-set list, a
unity top into a single empty cut set, and the real enumerator confirms
that an emptied top gate produces the empty list of cut sets. -/
theorem collapsed_top_trivial_output (tH fH : List ℕ) (fuel : ℕ) (t t' : ITree)
    (pr : List ℕ) (g : IGate)
    (hrun : pconstTop tH fH fuel t = some (t', pr))
    (hg : t'.lookup t.topIndex = some g)
    (hcol : g.gstate ≠ .normal) :
    (collapsedTopResult g.gstate 1).isSome = true ∧
    (g.gstate = .nullS → collapsedTopResult g.gstate 1 = some []) ∧
    (g.gstate = .unityS → collapsedTopResult g.gstate 1 = some [⟨∅, ∅⟩]) ∧
    (∀ L ty fuel2, findMcsFromSimpleGate fuel2 L (.mk ty ∅ ∅ []) = some []) := by
  refine ⟨?_, ?_, ?_, ?_⟩
  · cases hst : g.gstate with
    | normal => exact absurd hst hcol
    | nullS => rfl
    | unityS => rfl
  · intro h
    rw [h]
    rfl
  · intro h
    rw [h]
    rfl
  · intro L ty fuel2
    unfold findMcsFromSimpleGate
    rw [if_pos ⟨rfl, rfl, rfl⟩]

/-- Witness for C8: two concrete runs of the constant-propagation
interpreter, one collapsing the top to false and one to true. -/
theorem collapsed_top_trivial_output_witness :
    ((collapsedTopResult GState.nullS 1).isSome = true ∧
      (GState.nullS = .nullS → collapsedTopResult GState.nullS 1 = some []) ∧
      (GState.nullS = .unityS → collapsedTopResult GState.nullS 1 = some [⟨∅, ∅⟩]) ∧
      (∀ L ty fuel2, findMcsFromSimpleGate fuel2 L (.mk ty ∅ ∅ []) = some [])) ∧
    ((collapsedTopResult GState.unityS 1).isSome = true ∧
      (GState.unityS = .nullS → collapsedTopResult GState.unityS 1 = some []) ∧
      (GState.unityS = .unityS → collapsedTopResult GState.unityS 1 = some [⟨∅, ∅⟩]) ∧
      (∀ L ty fuel2, findMcsFromSimpleGate fuel2 L (.mk ty ∅ ∅ []) = some [])) :=
  ⟨collapsed_top_trivial_output [] [1] 10 exampleFalseTop
      { gates := [(5, { kind := .kAnd, itype := 2, vote := 0, gstate := .nullS,
                        children := [1, 2] })],
        topIndex := 5, newGateIndex := 5 } [5]
      { kind := .kAnd, itype := 2, vote := 0, gstate := .nullS, children := [1, 2] }
      (by decide) (by decide) (by decide),
    collapsed_top_trivial_output [1] [] 10 exampleTrueTop
      { gates := [(5, { kind := .kOr, itype := 1, vote := 0, gstate := .unityS,
                        children := [1, 2] })],
        topIndex := 5, newGateIndex := 5 } [5]
      { kind := .kOr, itype := 1, vote := 0, gstate := .unityS, children := [1, 2] }
      (by decide) (by decide) (by decide)⟩

/-! ### The complement-propagation interpreter

IndexedFaultTree::PropagateComplements (indexed_fault_tree.cc, lines
737-780) walks a module subtree and removes negative edges to
non-module gates: a cached complement twin is substituted when one
exists, otherwise a fresh twin of the opposite type with inverted
children is created, cached, marked processed and recursed into.
Negative edges to modules are skipped. -/

structure PCState where
  tree : ITree
  cache : List (ℕ × ℕ)
  processed : List ℕ
deriving DecidableEq

/-- Modelled from the spec: IndexedGate::SwapChild of the missing
header replaces one signed child edge with another, preserving the
ordered-set representation. -/
def swapChildG (g : IGate) (oldc newc : ℤ) : IGate :=
  { g with children := insSortedZ newc (g.children.erase oldc) }

/-- Modelled from the spec: IndexedGate::InvertChildren of the missing
header negates the sign of every child, used when a gate is duplicated
as its De Morgan complement. -/
def invertChildren (cs : List ℤ) : List ℤ :=
  cs.foldl (fun acc c => insSortedZ (-c) acc) []

/-- The complement twin created for a negative edge to a non-module
gate: opposite numeric type, children copied with all signs flipped
(indexed_fault_tree.cc, lines 751-760). -/
def complementTwin (target : IGate) : IGate :=
  { kind := .kUndef, itype := if target.itype = 1 then 2 else 1, vote := target.vote,
    gstate := .normal, children := invertChildren target.children }

/-- The state after creating a complement twin for the negative child c
of the gate at index i: the twin is stored at the fresh index, the edge
is redirected, the pair is cached, and the twin is marked processed
(indexed_fault_tree.cc, lines 751-762). -/
def pcCreateState (s : PCState) (i : ℕ) (g target : IGate) (c : ℤ) : PCState :=
  let ni := s.tree.newGateIndex + 1
  let tr := s.tree.setGate i (swapChildG g c (ni : ℤ))
  let tr2 : ITree :=
    { gates := (ni, complementTwin target) :: tr.gates,
      topIndex := s.tree.topIndex, newGateIndex := ni }
  { tree := tr2, cache := (c.natAbs, ni) :: s.cache, processed := ni :: s.processed }

/-- The fueled walk of PropagateComplements over the gate at index i
from child position pos.  Mutations restart the iteration at the
beginning; positive unprocessed gate children are marked and recursed
into, then iteration advances. -/
def pcLoop (mods : List ℕ) : ℕ → PCState → ℕ → ℕ → Option PCState
  | 0, _, _, _ => none
  | fuel + 1, s, i, pos =>
    match s.tree.lookup i with
    | none => none
    | some g =>
      if pos < g.children.length then
        let c := g.children.getD pos 0
        if s.tree.topIndex < c.natAbs ∧ c.natAbs ∉ mods then
          if c < 0 then
            match s.cache.lookup c.natAbs with
            | some comp =>
              pcLoop mods fuel
                { s with tree := s.tree.setGate i (swapChildG g c (comp : ℤ)) } i 0
            | none =>
              match s.tree.lookup c.natAbs with
              | none => none
              | some target =>
                match pcLoop mods fuel (pcCreateState s i g target c)
                    (s.tree.newGateIndex + 1) 0 with
                | none => none
                | some s2 => pcLoop mods fuel s2 i 0
          else
            if c.natAbs ∈ s.processed then pcLoop mods fuel s i (pos + 1)
            else
              match pcLoop mods fuel
                  { s with processed := c.natAbs :: s.processed } c.natAbs 0 with
              | none => none
              | some s2 => pcLoop mods fuel s2 i (pos + 1)
        else pcLoop mods fuel s i (pos + 1)
      else some s

/-- Reachability from a gate through gate edges that do not cross a
module boundary, in a given tree. -/
inductive ReachesPC (t : ITree) (mods : List ℕ) : ℕ → ℕ → Prop where
  | refl (i : ℕ) : ReachesPC t mods i i
  | step {i j : ℕ} {g : IGate} {c : ℤ} :
      ReachesPC t mods i j → t.lookup j = some g → c ∈ g.children →
      t.topIndex < c.natAbs → c.natAbs ∉ mods → ReachesPC t mods i c.natAbs

/-- The per-gate postcondition of complement propagation: every
non-module gate child edge is positive and its target is marked
processed. -/
def cleanGate (mods : List ℕ) (s : PCState) (j : ℕ) : Prop :=
  ∀ g, s.tree.lookup j = some g → ∀ c ∈ g.children,
    s.tree.topIndex < c.natAbs → c.natAbs ∉ mods → 0 < c ∧ c.natAbs ∈ s.processed

/-- The invariant bundle carried by the walk, over a rank function that
witnesses acyclicity of the non-module gate edges. -/
def pcInv (mods : List ℕ) (rk : ℕ → ℕ) (s : PCState) : Prop :=
  (∀ p ∈ s.tree.gates, ∀ c ∈ p.2.children,
      s.tree.topIndex < c.natAbs → c.natAbs ∉ mods → rk c.natAbs < rk p.1) ∧
  (∀ p ∈ s.tree.gates, ∀ c ∈ p.2.children,
      s.tree.topIndex < c.natAbs → c.natAbs ∉ mods → c.natAbs ≤ s.tree.newGateIndex) ∧
  (∀ p ∈ s.tree.gates, p.1 ≤ s.tree.newGateIndex) ∧
  (∀ m ∈ mods, m ≤ s.tree.newGateIndex) ∧
  (∀ j ∈ s.processed, j ≤ s.tree.newGateIndex) ∧
  (∀ tf ∈ s.cache,
      rk tf.2 = rk tf.1 ∧ tf.2 ∈ s.processed ∧ tf.2 ∉ mods ∧ tf.1 ∉ mods ∧
        tf.1 ≤ s.tree.newGateIndex)

theorem lookup_mem {β : Type} {l : List (ℕ × β)} {i : ℕ} {g : β}
    (h : l.lookup i = some g) : (i, g) ∈ l := by
  induction l with
  | nil => simp [List.lookup] at h
  | cons p rest ih =>
    obtain ⟨k, v⟩ := p
    by_cases hk : i = k
    · subst hk
      simp [List.lookup] at h
      subst h
      exact List.mem_cons_self _ _
    · have hne : (i == k) = false := beq_eq_false_iff_ne.mpr hk
      simp only [List.lookup, hne] at h
      exact List.mem_cons_of_mem _ (ih h)

theorem lookup_map_set_ne {l : List (ℕ × IGate)} {i j : ℕ} {g' : IGate} (hne : j ≠ i) :
    (l.map fun p => if p.1 = i then (i, g') else p).lookup j = l.lookup j := by
  induction l with
  | nil => rfl
  | cons p rest ih =>
    obtain ⟨k, v⟩ := p
    simp only [List.map_cons]
    by_cases hk : k = i
    · subst hk
      rw [if_pos rfl]
      have h1 : (j == k) = false := beq_eq_false_iff_ne.mpr hne
      simp only [List.lookup, h1]
      exact ih
    · rw [if_neg (by simpa using hk)]
      simp only [List.lookup]
      cases hjk : (j == k) with
      | true => rfl
      | false => exact ih

theorem lookup_setGate_ne {t : ITree} {i j : ℕ} {g' : IGate} (hne : j ≠ i) :
    (t.setGate i g').lookup j = t.lookup j :=
  lookup_map_set_ne hne

theorem mem_map_set {l : List (ℕ × IGate)} {i : ℕ} {g' : IGate} {q : ℕ × IGate}
    (hq : q ∈ l.map fun p => if p.1 = i then (i, g') else p) :
    q = (i, g') ∨ (q ∈ l ∧ q.1 ≠ i) := by
  obtain ⟨p, hp, he⟩ := List.mem_map.mp hq
  by_cases hpi : p.1 = i
  · rw [if_pos hpi] at he
    exact Or.inl he.symm
  · rw [if_neg hpi] at he
    subst he
    exact Or.inr ⟨hp, hpi⟩

theorem mem_foldl_insSortedZ_neg {x : ℤ} :
    ∀ {cs acc : List ℤ},
      (x ∈ cs.foldl (fun acc c => insSortedZ (-c) acc) acc ↔ x ∈ acc ∨ -x ∈ cs) := by
  intro cs
  induction cs with
  | nil => intro acc; simp
  | cons c t ih =>
    intro acc
    show x ∈ t.foldl _ (insSortedZ (-c) acc) ↔ _
    rw [ih, mem_insSortedZ]
    constructor
    · rintro ((rfl | hx) | hx)
      · simp
      · exact Or.inl hx
      · exact Or.inr (List.mem_cons_of_mem _ hx)
    · rintro (hx | hx)
      · exact Or.inl (Or.inr hx)
      · rcases List.mem_cons.mp hx with he | hx2
        · exact Or.inl (Or.inl (by omega))
        · exact Or.inr hx2

theorem mem_invertChildren {x : ℤ} {cs : List ℤ} :
    x ∈ invertChildren cs ↔ -x ∈ cs := by
  unfold invertChildren
  rw [mem_foldl_insSortedZ_neg]
  simp

theorem mem_swapChildG {g : IGate} {oldc newc x : ℤ} :
    x ∈ (swapChildG g oldc newc).children ↔ x = newc ∨ x ∈ g.children.erase oldc := by
  unfold swapChildG
  exact mem_insSortedZ

/-- The postcondition bundle of one completed pcLoop call: the rank
evolves only on fresh indices, the invariant is preserved, indices and
marks grow monotonically, newly marked gates rank below the processed
gate, only the processed gate and newly marked gates change, and module
child edges are preserved on every surviving gate. -/
def pcPost (mods : List ℕ) (rk rk' : ℕ → ℕ) (s : PCState) (i : ℕ) (s' : PCState) : Prop :=
  (∀ j, j ≤ s.tree.newGateIndex → rk' j = rk j) ∧
  pcInv mods rk' s' ∧
  s.tree.newGateIndex ≤ s'.tree.newGateIndex ∧
  s'.tree.topIndex = s.tree.topIndex ∧
  (∀ j, j ∈ s.processed → j ∈ s'.processed) ∧
  (∀ j, j ∈ s'.processed → j ∉ s.processed → rk' j < rk' i ∧ j ≤ s'.tree.newGateIndex) ∧
  (∀ j, s'.tree.lookup j ≠ s.tree.lookup j → j = i ∨ (j ∈ s'.processed ∧ j ∉ s.processed)) ∧
  (∀ j, (s.tree.lookup j).isSome = true → (s'.tree.lookup j).isSome = true) ∧
  (∀ j gj gj', s.tree.lookup j = some gj → s'.tree.lookup j = some gj' →
    ∀ c : ℤ, c.natAbs ∈ mods → (c ∈ gj.children ↔ c ∈ gj'.children))

theorem pcInv_setGate {mods : List ℕ} {rk : ℕ → ℕ} {s : PCState} {i : ℕ} {g' : IGate}
    (hinv : pcInv mods rk s) (hi : i ≤ s.tree.newGateIndex)
    (hrank : ∀ c ∈ g'.children, s.tree.topIndex < c.natAbs → c.natAbs ∉ mods →
      rk c.natAbs < rk i ∧ c.natAbs ≤ s.tree.newGateIndex) :
    pcInv mods rk { s with tree := s.tree.setGate i g' } := by
  obtain ⟨hE, hC, hF, hM, hP, hK⟩ := hinv
  refine ⟨?_, ?_, ?_, hM, hP, hK⟩
  · intro p hp c hc hgate hmod
    rcases mem_map_set hp with rfl | ⟨hpl, _⟩
    · exact (hrank c hc hgate hmod).1
    · exact hE p hpl c hc hgate hmod
  · intro p hp c hc hgate hmod
    rcases mem_map_set hp with rfl | ⟨hpl, _⟩
    · exact (hrank c hc hgate hmod).2
    · exact hC p hpl c hc hgate hmod
  · intro p hp
    rcases mem_map_set hp with rfl | ⟨hpl, _⟩
    · exact hi
    · exact hF p hpl

theorem mem_children_getD {l : List ℤ} {c : ℤ} (hc : c ∈ l) :
    ∃ k, k < l.length ∧ l.getD k 0 = c := by
  obtain ⟨k, hk, he⟩ := List.getElem_of_mem hc
  exact ⟨k, hk, by rw [List.getD_eq_getElem _ _ hk]; exact he⟩

theorem getD_mem_children {l : List ℤ} {k : ℕ} (hk : k < l.length) :
    l.getD k 0 ∈ l := by
  rw [List.getD_eq_getElem _ _ hk]
  exact List.getElem_mem _

theorem lookup_cons_self {β : Type} (k : ℕ) (v : β) (l : List (ℕ × β)) :
    List.lookup k ((k, v) :: l) = some v := by
  simp [List.lookup]

theorem lookup_cons_ne {β : Type} {k j : ℕ} (v : β) (l : List (ℕ × β)) (h : j ≠ k) :
    List.lookup j ((k, v) :: l) = List.lookup j l := by
  simp [List.lookup, beq_eq_false_iff_ne.mpr h]

theorem isSome_lookup_setGate {t : ITree} {i j : ℕ} {g' : IGate}
    (h : (t.lookup j).isSome = true) : ((t.setGate i g').lookup j).isSome = true := by
  by_cases hji : j = i
  · subst hji
    obtain ⟨g0, hg0⟩ := Option.isSome_iff_exists.mp h
    rw [lookup_setGate_self hg0]
    rfl
  · rw [lookup_setGate_ne hji]
    exact h

theorem cleanGate_mono {mods : List ℕ} {s s' : PCState} {j : ℕ} (h : cleanGate mods s j)
    (hl : s'.tree.lookup j = s.tree.lookup j) (htop : s'.tree.topIndex = s.tree.topIndex)
    (hproc : ∀ x, x ∈ s.processed → x ∈ s'.processed) : cleanGate mods s' j := by
  intro g hg c hc hgate hmod
  rw [hl] at hg
  rw [htop] at hgate
  obtain ⟨h1, h2⟩ := h g hg c hc hgate hmod
  exact ⟨h1, hproc _ h2⟩

theorem pcLoop_succ (mods : List ℕ) (fuel : ℕ) (s : PCState) (i pos : ℕ) :
    pcLoop mods (fuel + 1) s i pos =
      match s.tree.lookup i with
      | none => none
      | some g =>
        if pos < g.children.length then
          if s.tree.topIndex < (g.children.getD pos 0).natAbs ∧
              (g.children.getD pos 0).natAbs ∉ mods then
            if g.children.getD pos 0 < 0 then
              match s.cache.lookup (g.children.getD pos 0).natAbs with
              | some comp =>
                pcLoop mods fuel
                  { s with tree :=
                      s.tree.setGate i (swapChildG g (g.children.getD pos 0) (comp : ℤ)) } i 0
              | none =>
                match s.tree.lookup (g.children.getD pos 0).natAbs with
                | none => none
                | some target =>
                  match pcLoop mods fuel
                      (pcCreateState s i g target (g.children.getD pos 0))
                      (s.tree.newGateIndex + 1) 0 with
                  | none => none
                  | some s2 => pcLoop mods fuel s2 i 0
            else
              if (g.children.getD pos 0).natAbs ∈ s.processed then
                pcLoop mods fuel s i (pos + 1)
              else
                match pcLoop mods fuel
                    { s with processed := (g.children.getD pos 0).natAbs :: s.processed }
                    ((g.children.getD pos 0).natAbs) 0 with
                | none => none
                | some s2 => pcLoop mods fuel s2 i (pos + 1)
          else pcLoop mods fuel s i (pos + 1)
        else some s := rfl

theorem pcLoop_post (mods : List ℕ) :
    ∀ (fuel : ℕ) (s : PCState) (i pos : ℕ) (s' : PCState) (rk : ℕ → ℕ),
    pcLoop mods fuel s i pos = some s' →
    pcInv mods rk s →
    i ≤ s.tree.newGateIndex →
    (∀ k, k < pos → ∀ g0, s.tree.lookup i = some g0 →
      s.tree.topIndex < (g0.children.getD k 0).natAbs →
      (g0.children.getD k 0).natAbs ∉ mods →
      0 < g0.children.getD k 0 ∧ (g0.children.getD k 0).natAbs ∈ s.processed) →
    ∃ rk', pcPost mods rk rk' s i s' ∧ cleanGate mods s' i ∧
      ∀ j, j ∈ s'.processed → j ∉ s.processed → cleanGate mods s' j := by
  intro fuel
  induction fuel with
  | zero =>
    intro s i pos s' rk h _ _ _
    exact Option.noConfusion h
  | succ fuel ih =>
    intro s i pos s' rk h hinv hi hpre
    cases hg : s.tree.lookup i with
    | none =>
      rw [pcLoop_succ, hg] at h
      exact Option.noConfusion h
    | some g =>
    simp only [pcLoop_succ, hg] at h
    by_cases hlen : pos < g.children.length
    swap
    · -- the scan of the children is complete
      rw [if_neg hlen] at h
      injection h with h'
      subst h'
      refine ⟨rk, ⟨fun j _ => rfl, hinv, le_refl _, rfl, fun j hj => hj,
        fun j hj hnj => absurd hj hnj, fun j hne => absurd rfl hne,
        fun j hs => hs,
        fun j gj gj' h1 h2 d _ => by rw [h1] at h2; injection h2 with h2; rw [h2]⟩,
        ?_, fun j hj hnj => absurd hj hnj⟩
      intro g0 hg0 d hd hgate hmod
      rw [hg] at hg0
      injection hg0 with hg0
      subst hg0
      obtain ⟨k, hk, hke⟩ := mem_children_getD hd
      have hkpos : k < pos := lt_of_lt_of_le hk (le_of_not_lt hlen)
      have hok := hpre k hkpos g hg
      rw [hke] at hok
      exact hok hgate hmod
    · rw [if_pos hlen] at h
      have hcmem : g.children.getD pos 0 ∈ g.children := getD_mem_children hlen
      by_cases hcond : s.tree.topIndex < (g.children.getD pos 0).natAbs ∧
          (g.children.getD pos 0).natAbs ∉ mods
      swap
      · -- basic-event or module child: advance
        rw [if_neg hcond] at h
        refine ih s i (pos + 1) s' rk h hinv hi ?_
        intro k hk g0 hg0 hgate hmod
        rw [hg] at hg0
        injection hg0 with hg0
        subst hg0
        rcases Nat.lt_succ_iff_lt_or_eq.mp hk with hk' | hk'
        · exact hpre k hk' g hg hgate hmod
        · subst hk'
          exact absurd ⟨hgate, hmod⟩ hcond
      · rw [if_pos hcond] at h
        obtain ⟨hcgate, hcmod⟩ := hcond
        have hrkci : rk (g.children.getD pos 0).natAbs < rk i :=
          hinv.1 (i, g) (lookup_mem hg) _ hcmem hcgate hcmod
        have hcbound : (g.children.getD pos 0).natAbs ≤ s.tree.newGateIndex :=
          hinv.2.1 (i, g) (lookup_mem hg) _ hcmem hcgate hcmod
        by_cases hcneg : g.children.getD pos 0 < 0
        · rw [if_pos hcneg] at h
          cases hcache : s.cache.lookup (g.children.getD pos 0).natAbs with
          | some comp =>
            rw [hcache] at h
            obtain ⟨hrkc, hcompproc, hcompmods, _, _⟩ :=
              hinv.2.2.2.2.2 _ (lookup_mem hcache)
            have hcompbound : comp ≤ s.tree.newGateIndex :=
              hinv.2.2.2.2.1 comp hcompproc
            have hswaprank : ∀ c' ∈ (swapChildG g (g.children.getD pos 0)
                ((comp : ℕ) : ℤ)).children,
                s.tree.topIndex < c'.natAbs → c'.natAbs ∉ mods →
                rk c'.natAbs < rk i ∧ c'.natAbs ≤ s.tree.newGateIndex := by
              intro c' hc' hgate' hmod'
              rcases mem_swapChildG.mp hc' with rfl | hc'
              · rw [Int.natAbs_ofNat]
                simp only at hrkc
                rw [hrkc]
                exact ⟨hrkci, hcompbound⟩
              · have hmm := List.mem_of_mem_erase hc'
                exact ⟨hinv.1 (i, g) (lookup_mem hg) c' hmm hgate' hmod',
                  hinv.2.1 (i, g) (lookup_mem hg) c' hmm hgate' hmod'⟩
            have hinvSwap : pcInv mods rk { s with tree := s.tree.setGate i (swapChildG g (g.children.getD pos 0) ((comp : ℕ) : ℤ)) } :=
              pcInv_setGate hinv hi hswaprank
            obtain ⟨rk₂, ⟨hagree₂, hinv₂, hnew₂, htop₂, hproc₂, hmark₂, hframe₂,
                hdom₂, hmodp₂⟩, hclean₂, hcleannew₂⟩ :=
              ih _ i 0 s' rk h hinvSwap hi (fun k hk => absurd hk (Nat.not_lt_zero k))
            refine ⟨rk₂, ⟨hagree₂, hinv₂, hnew₂, htop₂, hproc₂, hmark₂, ?_, ?_, ?_⟩,
              hclean₂, hcleannew₂⟩
            · intro j hne
              by_cases hch2 : s'.tree.lookup j =
                  (s.tree.setGate i (swapChildG g (g.children.getD pos 0)
                    ((comp : ℕ) : ℤ))).lookup j
              · by_cases hji : j = i
                · exact Or.inl hji
                · rw [lookup_setGate_ne hji] at hch2
                  exact absurd hch2 hne
              · exact hframe₂ j hch2
            · intro j hs
              exact hdom₂ j (isSome_lookup_setGate hs)
            · intro j gj gj' h1 h2 d hd
              by_cases hji : j = i
              · subst hji
                rw [hg] at h1
                injection h1 with h1
                subst h1
                have hmid := hmodp₂ j _ gj' (lookup_setGate_self hg) h2 d hd
                rw [← hmid]
                rw [mem_swapChildG]
                constructor
                · intro hdg
                  right
                  rw [List.mem_erase_of_ne]
                  · exact hdg
                  · intro he
                    rw [he] at hd
                    exact hcmod hd
                · rintro (rfl | hdg)
                  · rw [Int.natAbs_ofNat] at hd
                    exact absurd hd hcompmods
                  · exact List.mem_of_mem_erase hdg
              · have hmidl : (s.tree.setGate i (swapChildG g (g.children.getD pos 0)
                    ((comp : ℕ) : ℤ))).lookup j = s.tree.lookup j := lookup_setGate_ne hji
                refine (hmodp₂ j gj gj' ?_ h2 d hd)
                rw [hmidl]
                exact h1
          | none =>
            rw [hcache] at h
            cases htarget : s.tree.lookup (g.children.getD pos 0).natAbs with
            | none =>
              simp only [htarget] at h
              exact Option.noConfusion h
            | some target =>
            simp only [htarget] at h
            cases hrec : pcLoop mods fuel
                (pcCreateState s i g target (g.children.getD pos 0))
                (s.tree.newGateIndex + 1) 0 with
            | none =>
              rw [hrec] at h
              exact Option.noConfusion h
            | some s2 =>
            rw [hrec] at h
            -- the fresh index and the evolved rank
            have hnimods : s.tree.newGateIndex + 1 ∉ mods := by
              intro hmem
              have := hinv.2.2.2.1 _ hmem
              omega
            have hinv₁ : pcInv mods
                (fun j => if j = s.tree.newGateIndex + 1
                  then rk (g.children.getD pos 0).natAbs else rk j)
                (pcCreateState s i g target (g.children.getD pos 0)) := by
              obtain ⟨hE, hC, hF, hM, hP, hK⟩ := hinv
              refine ⟨?_, ?_, ?_, ?_, ?_, ?_⟩
              · intro p hp c' hc' hgate' hmod'
                rcases List.mem_cons.mp hp with rfl | hp
                · have hmt : -c' ∈ target.children := mem_invertChildren.mp hc'
                  have htm := lookup_mem htarget
                  have h1 : rk (-c').natAbs < rk (g.children.getD pos 0).natAbs :=
                    hE _ htm _ hmt (by rwa [Int.natAbs_neg]) (by rwa [Int.natAbs_neg])
                  have h2 : (-c').natAbs ≤ s.tree.newGateIndex :=
                    hC _ htm _ hmt (by rwa [Int.natAbs_neg]) (by rwa [Int.natAbs_neg])
                  rw [Int.natAbs_neg] at h1 h2
                  beta_reduce
                  rw [if_neg (by omega), if_pos rfl]
                  exact h1
                · rcases mem_map_set hp with rfl | ⟨hpl, _⟩
                  · rcases mem_swapChildG.mp hc' with rfl | hc'
                    · beta_reduce
                      rw [Int.natAbs_ofNat, if_pos rfl, if_neg (by omega)]
                      exact hrkci
                    · have hmm := List.mem_of_mem_erase hc'
                      have hcb := hC (i, g) (lookup_mem hg) c' hmm hgate' hmod'
                      beta_reduce
                      rw [if_neg (by omega), if_neg (by omega)]
                      exact hE (i, g) (lookup_mem hg) c' hmm hgate' hmod'
                  · have hcb := hC p hpl c' hc' hgate' hmod'
                    have hpb := hF p hpl
                    beta_reduce
                    rw [if_neg (by omega), if_neg (by omega)]
                    exact hE p hpl c' hc' hgate' hmod'
              · intro p hp c' hc' hgate' hmod'
                rcases List.mem_cons.mp hp with rfl | hp
                · have hmt : -c' ∈ target.children := mem_invertChildren.mp hc'
                  have htm := lookup_mem htarget
                  have h2 : (-c').natAbs ≤ s.tree.newGateIndex :=
                    hC _ htm _ hmt (by rwa [Int.natAbs_neg]) (by rwa [Int.natAbs_neg])
                  rw [Int.natAbs_neg] at h2
                  show c'.natAbs ≤ s.tree.newGateIndex + 1
                  omega
                · rcases mem_map_set hp with rfl | ⟨hpl, _⟩
                  · rcases mem_swapChildG.mp hc' with rfl | hc'
                    · rw [Int.natAbs_ofNat]
                      show s.tree.newGateIndex + 1 ≤ s.tree.newGateIndex + 1
                      omega
                    · have hmm := List.mem_of_mem_erase hc'
                      have hcb := hC (i, g) (lookup_mem hg) c' hmm hgate' hmod'
                      show c'.natAbs ≤ s.tree.newGateIndex + 1
                      omega
                  · have hcb := hC p hpl c' hc' hgate' hmod'
                    show c'.natAbs ≤ s.tree.newGateIndex + 1
                    omega
              · intro p hp
                rcases List.mem_cons.mp hp with rfl | hp
                · exact le_refl _
                · rcases mem_map_set hp with rfl | ⟨hpl, _⟩
                  · show i ≤ s.tree.newGateIndex + 1
                    omega
                  · have := hF p hpl
                    show p.1 ≤ s.tree.newGateIndex + 1
                    omega
              · intro m hm
                have := hM m hm
                show m ≤ s.tree.newGateIndex + 1
                omega
              · intro j hj
                rcases List.mem_cons.mp hj with rfl | hj
                · exact le_refl _
                · have := hP j hj
                  show j ≤ s.tree.newGateIndex + 1
                  omega
              · intro tf htf
                rcases List.mem_cons.mp htf with rfl | htf
                · refine ⟨?_, List.mem_cons_self _ _, hnimods, hcmod, by
                    show (g.children.getD pos 0).natAbs ≤ s.tree.newGateIndex + 1
                    omega⟩
                  show (if _ = _ then _ else _) = (if _ = _ then _ else _)
                  rw [if_pos rfl, if_neg (by omega)]
                · obtain ⟨h1, h2, h3, h4, h5⟩ := hK tf htf
                  have hb2 : tf.2 ≤ s.tree.newGateIndex := hP tf.2 h2
                  refine ⟨?_, List.mem_cons_of_mem _ h2, h3, h4, by
                    show tf.1 ≤ s.tree.newGateIndex + 1
                    omega⟩
                  beta_reduce
                  rw [if_neg (by omega), if_neg (by omega)]
                  exact h1
            obtain ⟨rk₂, ⟨hagree₂, hinv₂, hnew₂, htop₂, hproc₂, hmark₂, hframe₂,
                hdom₂, hmodp₂⟩, hclean₂, hcleannew₂⟩ :=
              ih _ (s.tree.newGateIndex + 1) 0 s2 _ hrec hinv₁ (le_refl _)
                (fun k hk => absurd hk (Nat.not_lt_zero k))
            obtain ⟨rk₃, ⟨hagree₃, hinv₃, hnew₃, htop₃, hproc₃, hmark₃, hframe₃,
                hdom₃, hmodp₃⟩, hclean₃, hcleannew₃⟩ :=
              ih s2 i 0 s' rk₂ h hinv₂ (by
                have h1 : (pcCreateState s i g target
                    (g.children.getD pos 0)).tree.newGateIndex ≤ s2.tree.newGateIndex :=
                  hnew₂
                show i ≤ s2.tree.newGateIndex
                have : i ≤ s.tree.newGateIndex + 1 := by omega
                exact le_trans this h1)
                (fun k hk => absurd hk (Nat.not_lt_zero k))
            -- abbreviations for the created state
            have hs1new : (pcCreateState s i g target
                (g.children.getD pos 0)).tree.newGateIndex = s.tree.newGateIndex + 1 := rfl
            have hs1top : (pcCreateState s i g target
                (g.children.getD pos 0)).tree.topIndex = s.tree.topIndex := rfl
            have hs1proc : (pcCreateState s i g target (g.children.getD pos 0)).processed
                = (s.tree.newGateIndex + 1) :: s.processed := rfl
            -- rank bookkeeping
            have hrk2i : rk₂ i = rk i := by
              rw [hagree₂ i (by rw [hs1new]; omega)]
              beta_reduce
              rw [if_neg (by omega)]
            have hrk3i : rk₃ i = rk i := by
              rw [hagree₃ i (le_trans (by rw [hs1new]; omega) hnew₂)]
              exact hrk2i
            have hrk2ni : rk₂ (s.tree.newGateIndex + 1)
                = rk (g.children.getD pos 0).natAbs := by
              rw [hagree₂ _ (by rw [hs1new])]
              beta_reduce
              rw [if_pos rfl]
            have hagree₃' : ∀ j, j ≤ s2.tree.newGateIndex → rk₃ j = rk₂ j := hagree₃
            have hagreeS : ∀ j, j ≤ s.tree.newGateIndex → rk₃ j = rk j := by
              intro j hj
              rw [hagree₃ j (le_trans (le_trans (by omega : j ≤ s.tree.newGateIndex + 1)
                (le_of_eq hs1new.symm)) hnew₂)]
              rw [hagree₂ j (by rw [hs1new]; omega)]
              beta_reduce
              rw [if_neg (by omega)]
            have hlookS1 : ∀ j, j ≠ s.tree.newGateIndex + 1 → j ≠ i →
                (pcCreateState s i g target (g.children.getD pos 0)).tree.lookup j
                  = s.tree.lookup j := by
              intro j h1 h2
              show List.lookup j (((s.tree.newGateIndex + 1), complementTwin target) :: _)
                = _
              rw [lookup_cons_ne _ _ h1]
              exact lookup_setGate_ne h2
            have hlookS1i : (pcCreateState s i g target
                (g.children.getD pos 0)).tree.lookup i
                  = some (swapChildG g (g.children.getD pos 0)
                    ((s.tree.newGateIndex + 1 : ℕ) : ℤ)) := by
              show List.lookup i (((s.tree.newGateIndex + 1), complementTwin target) :: _)
                = _
              rw [lookup_cons_ne _ _ (by omega)]
              exact lookup_setGate_self hg
            have hlookS1ni : (pcCreateState s i g target
                (g.children.getD pos 0)).tree.lookup (s.tree.newGateIndex + 1)
                  = some (complementTwin target) := by
              show List.lookup _ _ = _
              exact lookup_cons_self _ _ _
            have hlookSni : s.tree.lookup (s.tree.newGateIndex + 1) = none := by
              cases hl : s.tree.lookup (s.tree.newGateIndex + 1) with
              | none => rfl
              | some gg =>
                have := hinv.2.2.1 _ (lookup_mem hl)
                simp only at this
                omega
            refine ⟨rk₃, ⟨hagreeS, hinv₃, ?_, ?_, ?_, ?_, ?_, ?_, ?_⟩, hclean₃, ?_⟩
            · have h1 : s.tree.newGateIndex ≤ s.tree.newGateIndex + 1 := by omega
              rw [← hs1new] at h1
              exact le_trans h1 (le_trans hnew₂ hnew₃)
            · rw [htop₃, htop₂, hs1top]
            · intro j hj
              exact hproc₃ j (hproc₂ j (by rw [hs1proc]; exact List.mem_cons_of_mem _ hj))
            · -- newly processed gates rank below i
              intro j hj hnj
              by_cases hj2 : j ∈ s2.processed
              · by_cases hj1 : j ∈ (pcCreateState s i g target
                    (g.children.getD pos 0)).processed
                · rw [hs1proc] at hj1
                  rcases List.mem_cons.mp hj1 with rfl | hj1
                  · constructor
                    · rw [hrk3i]
                      rw [hagree₃ _ (le_trans (le_of_eq hs1new.symm) hnew₂), hrk2ni]
                      exact hrkci
                    · have h1 : s.tree.newGateIndex + 1 ≤ s2.tree.newGateIndex := by
                        rw [← hs1new]
                        exact hnew₂
                      omega
                  · exact absurd hj1 hnj
                · obtain ⟨hr, hb⟩ := hmark₂ j hj2 hj1
                  constructor
                  · rw [hrk3i, hagree₃ j hb]
                    calc rk₂ j < rk₂ (s.tree.newGateIndex + 1) := hr
                    _ = rk (g.children.getD pos 0).natAbs := hrk2ni
                    _ < rk i := hrkci
                  · exact le_trans hb hnew₃
              · obtain ⟨hr, hb⟩ := hmark₃ j hj hj2
                rw [hrk3i] at hr
                exact ⟨by rw [hrk3i]; exact hr, hb⟩
            · -- frame across the three stages
              intro j hne
              by_cases h3 : s'.tree.lookup j = s2.tree.lookup j
              · rw [h3] at hne
                by_cases h2 : s2.tree.lookup j = (pcCreateState s i g target
                    (g.children.getD pos 0)).tree.lookup j
                · rw [h2] at hne
                  by_cases hji : j = i
                  · exact Or.inl hji
                  · by_cases hjni : j = s.tree.newGateIndex + 1
                    · subst hjni
                      right
                      constructor
                      · exact hproc₃ _ (hproc₂ _ (by
                          rw [hs1proc]
                          exact List.mem_cons_self _ _))
                      · intro hmem
                        have := hinv.2.2.2.2.1 _ hmem
                        omega
                    · rw [hlookS1 j hjni hji] at hne
                      exact absurd rfl hne
                · rcases hframe₂ j h2 with hji | ⟨hin, hnin⟩
                  · subst hji
                    right
                    constructor
                    · exact hproc₃ _ (hproc₂ _ (by
                        rw [hs1proc]
                        exact List.mem_cons_self _ _))
                    · intro hmem
                      have := hinv.2.2.2.2.1 _ hmem
                      omega
                  · right
                    refine ⟨hproc₃ j hin, ?_⟩
                    intro hmem
                    exact hnin (by rw [hs1proc]; exact List.mem_cons_of_mem _ hmem)
              · rcases hframe₃ j h3 with hji | ⟨hin, hnin⟩
                · exact Or.inl hji
                · right
                  refine ⟨hin, ?_⟩
                  intro hmem
                  exact hnin (hproc₂ j (by rw [hs1proc]; exact List.mem_cons_of_mem _ hmem))
            · -- domains only grow
              intro j hs
              refine hdom₃ j (hdom₂ j ?_)
              by_cases hji : j = i
              · subst hji
                rw [hlookS1i]
                rfl
              · by_cases hjni : j = s.tree.newGateIndex + 1
                · subst hjni
                  rw [hlookS1ni]
                  rfl
                · rw [hlookS1 j hjni hji]
                  exact hs
            · -- module children are preserved
              intro j gj gj' h1 h2 d hd
              have hjne : j ≠ s.tree.newGateIndex + 1 := by
                intro hje
                rw [hje, hlookSni] at h1
                exact Option.noConfusion h1
              by_cases hji : j = i
              · have h1i : s.tree.lookup i = some gj := by
                  rw [← hji]
                  exact h1
                rw [hg] at h1i
                injection h1i with h1i
                have h2i : s'.tree.lookup i = some gj' := by
                  rw [← hji]
                  exact h2
                obtain ⟨gm2, hgm2⟩ := Option.isSome_iff_exists.mp
                  (hdom₂ i (by rw [hlookS1i]; rfl))
                have hstep1 : ∀ e : ℤ, e.natAbs ∈ mods →
                    (e ∈ g.children ↔ e ∈ (swapChildG g (g.children.getD pos 0)
                      ((s.tree.newGateIndex + 1 : ℕ) : ℤ)).children) := by
                  intro e he
                  rw [mem_swapChildG]
                  constructor
                  · intro hdg
                    right
                    rw [List.mem_erase_of_ne]
                    · exact hdg
                    · intro hee
                      rw [hee] at he
                      exact hcmod he
                  · rintro (rfl | hdg)
                    · rw [Int.natAbs_ofNat] at he
                      exact absurd he hnimods
                    · exact List.mem_of_mem_erase hdg
                rw [← h1i, hstep1 d hd]
                rw [hmodp₂ i _ _ hlookS1i hgm2 d hd]
                exact hmodp₃ i _ _ hgm2 h2i d hd
              · have hmid1 : (pcCreateState s i g target
                    (g.children.getD pos 0)).tree.lookup j = some gj := by
                  rw [hlookS1 j hjne hji]
                  exact h1
                obtain ⟨gm2, hgm2⟩ := Option.isSome_iff_exists.mp
                  (hdom₂ j (by rw [hmid1]; rfl))
                rw [hmodp₂ j _ _ hmid1 hgm2 d hd]
                exact hmodp₃ j _ _ hgm2 h2 d hd
            · -- every newly processed gate is clean
              intro j hj hnj
              by_cases hj2 : j ∈ s2.processed
              · by_cases hj1 : j ∈ (pcCreateState s i g target
                    (g.children.getD pos 0)).processed
                · rw [hs1proc] at hj1
                  rcases List.mem_cons.mp hj1 with rfl | hj1
                  · refine cleanGate_mono hclean₂ ?_ (by rw [htop₃]) hproc₃
                    by_cases hch : s'.tree.lookup (s.tree.newGateIndex + 1)
                        = s2.tree.lookup (s.tree.newGateIndex + 1)
                    · exact hch
                    · rcases hframe₃ _ hch with hji | ⟨_, hnin⟩
                      · exfalso
                        omega
                      · exact absurd hj2 hnin
                  · exact absurd hj1 hnj
                · have hj1' : j ∉ (pcCreateState s i g target
                      (g.children.getD pos 0)).processed := hj1
                  refine cleanGate_mono (hcleannew₂ j hj2 hj1') ?_ (by rw [htop₃]) hproc₃
                  by_cases hch : s'.tree.lookup j = s2.tree.lookup j
                  · exact hch
                  · rcases hframe₃ _ hch with hji | ⟨_, hnin⟩
                    · exfalso
                      obtain ⟨hr, hb⟩ := hmark₂ j hj2 hj1'
                      rw [hji] at hr
                      rw [hrk2i, hrk2ni] at hr
                      omega
                    · exact absurd hj2 hnin
              · exact hcleannew₃ j hj hj2
        · -- positive gate child
          rw [if_neg hcneg] at h
          have hcpos : 0 < g.children.getD pos 0 := by
            have h0 : (g.children.getD pos 0) ≠ 0 := by
              intro h0
              rw [h0] at hcgate
              simp at hcgate
            omega
          by_cases hcproc : (g.children.getD pos 0).natAbs ∈ s.processed
          · rw [if_pos hcproc] at h
            refine ih s i (pos + 1) s' rk h hinv hi ?_
            intro k hk g0 hg0 hgate hmod
            rw [hg] at hg0
            injection hg0 with hg0
            subst hg0
            rcases Nat.lt_succ_iff_lt_or_eq.mp hk with hk' | hk'
            · exact hpre k hk' g hg hgate hmod
            · subst hk'
              exact ⟨hcpos, hcproc⟩
          · rw [if_neg hcproc] at h
            cases hrec : pcLoop mods fuel
                { s with processed := (g.children.getD pos 0).natAbs :: s.processed }
                ((g.children.getD pos 0).natAbs) 0 with
            | none =>
              rw [hrec] at h
              exact Option.noConfusion h
            | some s2 =>
            rw [hrec] at h
            have hinvM : pcInv mods rk
                { s with processed := (g.children.getD pos 0).natAbs :: s.processed } := by
              obtain ⟨hE, hC, hF, hM, hP, hK⟩ := hinv
              refine ⟨hE, hC, hF, hM, ?_, ?_⟩
              · intro j hj
                rcases List.mem_cons.mp hj with rfl | hj
                · exact hcbound
                · exact hP j hj
              · intro tf htf
                obtain ⟨h1, h2, h3, h4, h5⟩ := hK tf htf
                exact ⟨h1, List.mem_cons_of_mem _ h2, h3, h4, h5⟩
            obtain ⟨rk₂, ⟨hagree₂, hinv₂, hnew₂, htop₂, hproc₂, hmark₂, hframe₂,
                hdom₂, hmodp₂⟩, hclean₂, hcleannew₂⟩ :=
              ih _ ((g.children.getD pos 0).natAbs) 0 s2 rk hrec hinvM hcbound
                (fun k hk => absurd hk (Nat.not_lt_zero k))
            have hrk2i : rk₂ i = rk i := hagree₂ i hi
            have hrk2c : rk₂ (g.children.getD pos 0).natAbs
                = rk (g.children.getD pos 0).natAbs := hagree₂ _ hcbound
            have hlooki2 : s2.tree.lookup i = some g := by
              by_cases hch : s2.tree.lookup i = s.tree.lookup i
              · rw [hch]
                exact hg
              · rcases hframe₂ i hch with hji | ⟨hin, hnin⟩
                · exfalso
                  rw [hji] at hrkci
                  exact absurd hrkci (lt_irrefl _)
                · exfalso
                  obtain ⟨hr, _⟩ := hmark₂ i hin hnin
                  rw [hrk2i, hrk2c] at hr
                  omega
            have hpre₃ : ∀ k, k < pos + 1 → ∀ g0, s2.tree.lookup i = some g0 →
                s2.tree.topIndex < (g0.children.getD k 0).natAbs →
                (g0.children.getD k 0).natAbs ∉ mods →
                0 < g0.children.getD k 0 ∧ (g0.children.getD k 0).natAbs ∈ s2.processed := by
              intro k hk g0 hg0 hgate hmod
              rw [hlooki2] at hg0
              injection hg0 with hg0
              subst hg0
              rw [htop₂] at hgate
              rcases Nat.lt_succ_iff_lt_or_eq.mp hk with hk' | hk'
              · obtain ⟨hp1, hp2⟩ := hpre k hk' g hg hgate hmod
                exact ⟨hp1, hproc₂ _ (List.mem_cons_of_mem _ hp2)⟩
              · subst hk'
                exact ⟨hcpos, hproc₂ _ (List.mem_cons_self _ _)⟩
            obtain ⟨rk₃, ⟨hagree₃, hinv₃, hnew₃, htop₃, hproc₃, hmark₃, hframe₃,
                hdom₃, hmodp₃⟩, hclean₃, hcleannew₃⟩ :=
              ih s2 i (pos + 1) s' rk₂ h hinv₂ (le_trans hi hnew₂) hpre₃
            have hrk3i : rk₃ i = rk i := by
              rw [hagree₃ i (le_trans hi hnew₂)]
              exact hrk2i
            refine ⟨rk₃, ⟨?_, hinv₃, le_trans hnew₂ hnew₃, ?_, ?_, ?_, ?_, ?_, ?_⟩,
              hclean₃, ?_⟩
            · intro j hj
              rw [hagree₃ j (le_trans hj hnew₂)]
              exact hagree₂ j hj
            · rw [htop₃, htop₂]
            · intro j hj
              exact hproc₃ j (hproc₂ j (List.mem_cons_of_mem _ hj))
            · intro j hj hnj
              by_cases hj2 : j ∈ s2.processed
              · by_cases hj1 : j ∈ ({ s with processed :=
                    (g.children.getD pos 0).natAbs :: s.processed } : PCState).processed
                · rcases List.mem_cons.mp hj1 with hje | hj1
                  · constructor
                    · rw [hrk3i, hje]
                      rw [hagree₃ _ (le_trans hcbound hnew₂), hrk2c]
                      exact hrkci
                    · rw [hje]
                      exact le_trans hcbound (le_trans hnew₂ hnew₃)
                  · exact absurd hj1 hnj
                · obtain ⟨hr, hb⟩ := hmark₂ j hj2 hj1
                  rw [hrk2c] at hr
                  constructor
                  · rw [hrk3i, hagree₃ j hb]
                    calc rk₂ j < rk (g.children.getD pos 0).natAbs := hr
                    _ < rk i := hrkci
                  · exact le_trans hb hnew₃
              · obtain ⟨hr, hb⟩ := hmark₃ j hj hj2
                rw [hrk3i] at hr
                exact ⟨by rw [hrk3i]; exact hr, hb⟩
            · intro j hne
              by_cases h3 : s'.tree.lookup j = s2.tree.lookup j
              · rw [h3] at hne
                rcases hframe₂ j hne with hje | ⟨hin, hnin⟩
                · right
                  rw [hje]
                  refine ⟨hproc₃ _ (hproc₂ _ (List.mem_cons_self _ _)), hcproc⟩
                · right
                  refine ⟨hproc₃ j hin, ?_⟩
                  intro hmem
                  exact hnin (List.mem_cons_of_mem _ hmem)
              · rcases hframe₃ j h3 with hji | ⟨hin, hnin⟩
                · exact Or.inl hji
                · right
                  refine ⟨hin, ?_⟩
                  intro hmem
                  exact hnin (hproc₂ j (List.mem_cons_of_mem _ hmem))
            · intro j hs
              exact hdom₃ j (hdom₂ j hs)
            · intro j gj gj' h1 h2 d hd
              obtain ⟨gm2, hgm2⟩ := Option.isSome_iff_exists.mp
                (hdom₂ j (by rw [show ({ s with processed :=
                  (g.children.getD pos 0).natAbs :: s.processed } : PCState).tree
                    = s.tree from rfl, h1]; rfl))
              rw [hmodp₂ j _ _ h1 hgm2 d hd]
              exact hmodp₃ j _ _ hgm2 h2 d hd
            · intro j hj hnj
              by_cases hj2 : j ∈ s2.processed
              · by_cases hj1 : j ∈ (g.children.getD pos 0).natAbs :: s.processed
                · rcases List.mem_cons.mp hj1 with hje | hj1
                  · rw [hje]
                    rw [hje] at hj2
                    refine cleanGate_mono hclean₂ ?_ (by rw [htop₃]) hproc₃
                    by_cases hch : s'.tree.lookup (g.children.getD pos 0).natAbs
                        = s2.tree.lookup (g.children.getD pos 0).natAbs
                    · exact hch
                    · rcases hframe₃ _ hch with hji | ⟨_, hnin⟩
                      · exfalso
                        rw [hji] at hrkci
                        exact absurd hrkci (lt_irrefl _)
                      · exact absurd hj2 hnin
                  · exact absurd hj1 hnj
                · refine cleanGate_mono (hcleannew₂ j hj2 hj1) ?_ (by rw [htop₃]) hproc₃
                  by_cases hch : s'.tree.lookup j = s2.tree.lookup j
                  · exact hch
                  · rcases hframe₃ _ hch with hji | ⟨_, hnin⟩
                    · exfalso
                      obtain ⟨hr, _⟩ := hmark₂ j hj2 hj1
                      rw [hji, hrk2i, hrk2c] at hr
                      omega
                    · exact absurd hj2 hnin
              · exact hcleannew₃ j hj hj2

/-! ### C3: the survivors of complement propagation -/

/-- A concrete module tree: the root 10 carries a negative edge to the
module 12 and a positive edge to the gate 11, which carries a negative
edge to the ordinary gate 13. -/
def pcExample : PCState :=
  { tree := { gates := [(10, ⟨.kAnd, 2, 0, .normal, [-12, 11]⟩),

                        (11, ⟨.kOr, 1, 0, .normal, [-13, 1]⟩),
                        (12, ⟨.kAnd, 2, 0, .normal, [3, 4]⟩),
                        (13, ⟨.kAnd, 2, 0, .normal, [3, 4]⟩)],
              topIndex := 10, newGateIndex := 13 },
    cache := [], processed := [] }

/-- The state produced by complement propagation on the example: a
complement twin 14 of gate 13 replaces the negative edge inside 11,
while the negative module edge of the root survives untouched. -/
def pcExampleOut : PCState :=
  { tree := { gates := [(14, ⟨.kUndef, 1, 0, .normal, [-4, -3]⟩),
                        (10, ⟨.kAnd, 2, 0, .normal, [-12, 11]⟩),
                        (11, ⟨.kOr, 1, 0, .normal, [1, 14]⟩),
                        (12, ⟨.kAnd, 2, 0, .normal, [3, 4]⟩),
                        (13, ⟨.kAnd, 2, 0, .normal, [3, 4]⟩)],
              topIndex := 10, newGateIndex := 14 },
    cache := [(13, 14)], processed := [14, 11] }

/-- Every gate reachable from the root of a completed walk, without
crossing a module boundary, satisfies the per-gate postcondition. -/
theorem pcLoop_reachable_clean {mods : List ℕ} {fuel : ℕ} {s s' : PCState}
    {root : ℕ} {rk : ℕ → ℕ}
    (hrun : pcLoop mods fuel s root 0 = some s')
    (hinv : pcInv mods rk s)
    (hroot : root ≤ s.tree.newGateIndex)
    (hproc0 : s.processed = []) :
    ∀ j, ReachesPC s'.tree mods root j → cleanGate mods s' j := by
  obtain ⟨rk', _, hclean, hcleannew⟩ :=
    pcLoop_post mods fuel s root 0 s' rk hrun hinv hroot
      (fun k hk => absurd hk (Nat.not_lt_zero k))
  intro j hreach
  induction hreach with
  | refl => exact hclean
  | step hR hlook hc hgate hmod ih =>
    obtain ⟨hpos, hmem⟩ := ih _ hlook _ hc hgate hmod
    exact hcleannew _ hmem (by rw [hproc0]; exact List.not_mem_nil _)

/-- C3: after complement propagation completes on the tree rooted at a
module's top gate, every gate reachable from that root without crossing
a module boundary has no negative child edge naming a non-module gate;
negative edges into module gates survive, so the claim holds only with
the module exception. -/
theorem pc_reachable_no_negative_gate_child (mods : List ℕ) (fuel : ℕ)
    (s s' : PCState) (root : ℕ) (rk : ℕ → ℕ)
    (hrun : pcLoop mods fuel s root 0 = some s')
    (hinv : pcInv mods rk s)
    (hroot : root ≤ s.tree.newGateIndex)
    (hproc0 : s.processed = []) :
    ∀ j, ReachesPC s'.tree mods root j →
      ∀ g, s'.tree.lookup j = some g → ∀ c ∈ g.children,
        s'.tree.topIndex < c.natAbs → c.natAbs ∉ mods → 0 < c := by
  intro j hreach g hg c hc hgate hmod
  exact (pcLoop_reachable_clean hrun hinv hroot hproc0 j hreach
    g hg c hc hgate hmod).1

/-- C3 counterexample to the unqualified claim: the completed walk keeps
the sign-negative edge to 12 on the root gate even though 12 names a
gate of the tree, because 12 is a module. -/
theorem pc_negative_module_edge_survives :
    pcLoop [12] 30 pcExample 10 0 = some pcExampleOut ∧
    pcExampleOut.tree.lookup 10 = some ⟨.kAnd, 2, 0, .normal, [-12, 11]⟩ ∧
    (-12 : ℤ) ∈ [(-12 : ℤ), 11] ∧ (-12 : ℤ) < 0 ∧
    pcExampleOut.tree.topIndex < (-12 : ℤ).natAbs ∧
    (pcExampleOut.tree.lookup 12).isSome = true := by
  decide

/-- C3 witness: the amended theorem applied to the concrete tree, at the
reachable gate 11 and its gate child 14. -/
theorem pc_reachable_no_negative_gate_child_witness :
    pcLoop [12] 30 pcExample 10 0 = some pcExampleOut ∧ 0 < (14 : ℤ) :=
  ⟨by decide,
    pc_reachable_no_negative_gate_child [12] 30 pcExample pcExampleOut 10
      (fun j => 20 - j) (by decide) (by unfold pcInv; decide) (by decide) rfl 11
      (@ReachesPC.step pcExampleOut.tree [12] 10 10
        ⟨.kAnd, 2, 0, .normal, [-12, 11]⟩ 11
        (ReachesPC.refl 10) (by decide) (by decide) (by decide) (by decide))
      ⟨.kOr, 1, 0, .normal, [1, 14]⟩ (by decide) 14 (by decide) (by decide)
      (by decide)⟩

/-! ### C10: module complements are deferred to enumeration time -/

/-- IndexedFaultTree::FindMcsFromModule (indexed_fault_tree.cc, lines
193-198): a negatively signed module index is expanded by flipping the
numeric type of its top gate between 1 (OR) and 2 (AND) and inverting
the signs of all its children. -/
def applyTopComplement (g : IGate) : IGate :=
  { g with itype := if g.itype = 1 then 2 else 1,
           children := invertChildren g.children }

/-- Boolean meaning of the numeric gate type carried after unrolling:
type 1 is an OR over the signed children, type 2 an AND. -/
def evalNumGate (g : IGate) (v : ℤ → Bool) : Bool :=
  if g.itype = 1 then g.children.any (lit v) else g.children.all (lit v)

theorem all_lit_invert (v : ℤ → Bool) (cs : List ℤ) (hnz : ∀ c ∈ cs, c ≠ 0) :
    (invertChildren cs).all (lit v) = ! cs.any (lit v) := by
  cases hany : cs.any (lit v) with
  | true =>
    obtain ⟨x, hx, hlx⟩ := List.any_eq_true.mp hany
    simp only [Bool.not_true]
    refine List.all_eq_false.mpr ⟨-x, mem_invertChildren.mpr (by rwa [neg_neg]), ?_⟩
    rw [lit_neg v (hnz x hx), hlx]
    simp
  | false =>
    simp only [Bool.not_false]
    refine List.all_eq_true.mpr ?_
    intro y hy
    have hmy : -y ∈ cs := mem_invertChildren.mp hy
    have hy0 : y ≠ 0 := by
      intro h0
      rw [h0] at hmy
      exact absurd rfl (hnz 0 (by simpa using hmy))
    have hfy : lit v (-y) = false := by
      rcases hql : lit v (-y) with _ | _
      · rfl
      · exact absurd (List.any_eq_true.mpr ⟨-y, hmy, hql⟩) (by rw [hany]; simp)
    have := lit_neg v hy0
    rw [hfy] at this
    rw [show lit v y = !! lit v y by rw [Bool.not_not], ← this]
    rfl

theorem any_lit_invert (v : ℤ → Bool) (cs : List ℤ) (hnz : ∀ c ∈ cs, c ≠ 0) :
    (invertChildren cs).any (lit v) = ! cs.all (lit v) := by
  cases hall : cs.all (lit v) with
  | true =>
    simp only [Bool.not_true]
    refine List.any_eq_false.mpr ?_
    intro y hy
    have hmy : -y ∈ cs := mem_invertChildren.mp hy
    have hy0 : y ≠ 0 := by
      intro h0
      rw [h0] at hmy
      exact absurd rfl (hnz 0 (by simpa using hmy))
    have hty : lit v (-y) = true := List.all_eq_true.mp hall _ hmy
    have := lit_neg v hy0
    rw [hty] at this
    have hyv : lit v y = false := by
      cases hq : lit v y with
      | false => rfl
      | true => rw [hq] at this; exact absurd this.symm (by simp)
    simp [hyv]
  | false =>
    obtain ⟨x, hx, hlx⟩ := List.all_eq_false.mp hall
    have hlx2 : lit v x = false := by
      cases hq : lit v x with
      | false => rfl
      | true => exact absurd hq hlx
    simp only [Bool.not_false]
    refine List.any_eq_true.mpr ⟨-x, mem_invertChildren.mpr (by rwa [neg_neg]), ?_⟩
    rw [lit_neg v (hnz x hx), hlx2]
    rfl

/-- C10: complement propagation never builds a twin for a module (no
cache pair names a module as its original), module child edges are
bitwise preserved by the walk, and at enumeration time a negatively
signed module is expanded by flipping the numeric gate type and
inverting the children's signs, which is exactly boolean negation of the
module's top gate. -/
theorem pc_module_complement_deferred (mods : List ℕ) (fuel : ℕ)
    (s s' : PCState) (root : ℕ) (rk : ℕ → ℕ)
    (hrun : pcLoop mods fuel s root 0 = some s')
    (hinv : pcInv mods rk s)
    (hroot : root ≤ s.tree.newGateIndex)
    (g : IGate) (v : ℤ → Bool)
    (hty : g.itype = 1 ∨ g.itype = 2)
    (hnz : ∀ c ∈ g.children, c ≠ 0) :
    (∀ tf ∈ s'.cache, tf.1 ∉ mods) ∧
    (∀ j gj gj', s.tree.lookup j = some gj → s'.tree.lookup j = some gj' →
      ∀ c : ℤ, c.natAbs ∈ mods → (c ∈ gj.children ↔ c ∈ gj'.children)) ∧
    evalNumGate (applyTopComplement g) v = ! evalNumGate g v := by
  obtain ⟨rk', hpost, _, _⟩ :=
    pcLoop_post mods fuel s root 0 s' rk hrun hinv hroot
      (fun k hk => absurd hk (Nat.not_lt_zero k))
  obtain ⟨_, hinv', _, _, _, _, _, _, hmodp⟩ := hpost
  refine ⟨fun tf htf => (hinv'.2.2.2.2.2 tf htf).2.2.2.1, hmodp, ?_⟩
  rcases hty with h | h
  · show (if (applyTopComplement g).itype = 1 then _ else _) = _
    rw [show (applyTopComplement g).itype = 2 by
      show (if g.itype = 1 then 2 else 1) = 2
      rw [if_pos h]]
    rw [if_neg (by omega)]
    show (invertChildren g.children).all (lit v) = _
    rw [all_lit_invert v g.children hnz]
    unfold evalNumGate
    rw [if_pos h]
  · show (if (applyTopComplement g).itype = 1 then _ else _) = _
    rw [show (applyTopComplement g).itype = 1 by
      show (if g.itype = 1 then 2 else 1) = 1
      rw [if_neg (by omega)]]
    rw [if_pos rfl]
    show (invertChildren g.children).any (lit v) = _
    rw [any_lit_invert v g.children hnz]
    unfold evalNumGate
    rw [if_neg (by omega)]

/-- C10 witness: the theorem at the concrete module tree, with an OR top
gate over a positive and a negative basic event and the valuation that
sets only event 1. -/
theorem pc_module_complement_deferred_witness :
    ((∀ tf ∈ pcExampleOut.cache, tf.1 ∉ ([12] : List ℕ)) ∧
     (∀ j gj gj', pcExample.tree.lookup j = some gj →
        pcExampleOut.tree.lookup j = some gj' →
        ∀ c : ℤ, c.natAbs ∈ ([12] : List ℕ) → (c ∈ gj.children ↔ c ∈ gj'.children)) ∧
     evalNumGate (applyTopComplement ⟨.kOr, 1, 0, .normal, [1, -2]⟩)
        (fun c => decide (c = 1))
      = ! evalNumGate ⟨.kOr, 1, 0, .normal, [1, -2]⟩ (fun c => decide (c = 1))) :=
  pc_module_complement_deferred [12] 30 pcExample pcExampleOut 10 (fun j => 20 - j)
    (by decide) (by unfold pcInv; decide) (by decide)
    ⟨.kOr, 1, 0, .normal, [1, -2]⟩ (fun c => decide (c = 1))
    (Or.inl rfl) (by decide)

/-! ### C7: module detection from DFS visit stamps

IndexedFaultTree::AssignTiming (indexed_fault_tree.cc, lines 668-691)
stamps every node with visit times, and
IndexedFaultTree::FindOriginalModules (lines 693-735) walks the tree
computing, per gate, the minimum and maximum visit time seen in its
subtree, memoized per gate; a gate whose subtree minimum equals its own
enter time and whose subtree maximum equals its own exit time is flagged
as a module. -/

/-- The first visit time of a signed node index: basic events read the
basic table, gates their enter stamp. -/
def firstV (t : ITree) (vb : ℕ → ℕ × ℕ) (vg : ℕ → ℕ × ℕ × ℕ) (d : ℤ) : ℕ :=
  if d.natAbs < t.topIndex then (vb d.natAbs).1 else (vg d.natAbs).1

/-- The last visit time of a signed node index: basic events read the
basic table, gates their last-visit stamp. -/
def lastV (t : ITree) (vb : ℕ → ℕ × ℕ) (vg : ℕ → ℕ × ℕ × ℕ) (d : ℤ) : ℕ :=
  if d.natAbs < t.topIndex then (vb d.natAbs).2 else (vg d.natAbs).2.2

/-- Proper descendants of a gate: its signed child edges, and the
descendants of its gate-valued children. -/
inductive Desc (t : ITree) : ℕ → ℤ → Prop where
  | child {i : ℕ} {g : IGate} {c : ℤ} :
      t.lookup i = some g → c ∈ g.children → Desc t i c
  | step {i : ℕ} {g : IGate} {c d : ℤ} :
      t.lookup i = some g → c ∈ g.children → ¬ c.natAbs < t.topIndex →
      Desc t c.natAbs d → Desc t i d

/-- Descendants gathered through a list of child edges. -/
def DescL (t : ITree) (cs : List ℤ) (d : ℤ) : Prop :=
  ∃ c ∈ cs, c = d ∨ (¬ c.natAbs < t.topIndex ∧ Desc t c.natAbs d)

/-- The memoization and module-set state of FindOriginalModules. -/
structure FOMState where
  memo : List (ℕ × (ℕ × ℕ))
  modules : List ℕ
deriving DecidableEq

/-- One pending call of the walk: analysing a gate, or folding the
running minimum and maximum over a list of child edges. -/
inductive FomCall where
  | gate (i : ℕ)
  | kids (cs : List ℤ) (mn mx : ℕ)
deriving DecidableEq

/-- IndexedFaultTree::FindOriginalModules (indexed_fault_tree.cc, lines
693-735) as a fueled interpreter over the visit tables: a memoized gate
returns its stored pair; otherwise the minimum and maximum visit times
are folded over the children starting from the gate's enter and exit
stamps, the gate is flagged as a module when the fold returns exactly
those stamps, the maximum is then widened by the gate's last revisit,
and the pair is memoized and returned. -/
def fomRun (t : ITree) (vb : ℕ → ℕ × ℕ) (vg : ℕ → ℕ × ℕ × ℕ) :
    ℕ → FomCall → FOMState → Option (FOMState × ℕ × ℕ)
  | 0, _, _ => none
  | fuel + 1, .gate i, st =>
    match st.memo.lookup i with
    | some mm => some (st, mm)
    | none =>
      match t.lookup i with
      | none => none
      | some g =>
        match fomRun t vb vg fuel (.kids g.children (vg i).1 (vg i).2.1) st with
        | none => none
        | some (st1, mn, mx) =>
          let mods2 := if mn = (vg i).1 ∧ mx = (vg i).2.1 then i :: st1.modules
            else st1.modules
          let mx2 := if (vg i).2.2 > mx then (vg i).2.2 else mx
          some ({ memo := (i, (mn, mx2)) :: st1.memo, modules := mods2 }, mn, mx2)
  | _ + 1, .kids [] mn mx, st => some (st, mn, mx)
  | fuel + 1, .kids (c :: rest) mn mx, st =>
    if c.natAbs < t.topIndex then
      fomRun t vb vg fuel
        (.kids rest (if (vb c.natAbs).1 < mn then (vb c.natAbs).1 else mn)
          (if (vb c.natAbs).2 > mx then (vb c.natAbs).2 else mx)) st
    else
      match fomRun t vb vg fuel (.gate c.natAbs) st with
      | none => none
      | some (st1, mnc, mxc) =>
        fomRun t vb vg fuel
          (.kids rest (if mnc < mn then mnc else mn)
            (if mxc > mx then mxc else mx)) st1

/-- The timing state of the DFS stamping pass: the clock, the basic
table of first and last visits, and the gate table of enter, exit and
last visits. -/
structure ATState where
  time : ℕ
  vb : List (ℕ × (ℕ × ℕ))
  vg : List (ℕ × (ℕ × ℕ × ℕ))
deriving DecidableEq

/-- Modelled from the spec: IndexedGate::Visit of the missing header
records the first call as the enter stamp and the second as the exit
stamp, keeps the latest call as the last-visit stamp, and reports
whether the gate was already entered and exited. -/
def visitG (vg : List (ℕ × (ℕ × ℕ × ℕ))) (i t : ℕ) :
    List (ℕ × (ℕ × ℕ × ℕ)) × Bool :=
  match vg.lookup i with
  | none => ((i, (t, 0, t)) :: vg, false)
  | some (e, x, _) =>
    if x = 0 then ((i, (e, t, t)) :: vg, false)
    else ((i, (e, x, t)) :: vg, true)

/-- One pending call of the stamping walk. -/
inductive ATCall where
  | gate (i : ℕ)
  | kids (cs : List ℤ)
deriving DecidableEq

/-- IndexedFaultTree::AssignTiming (indexed_fault_tree.cc, lines
668-691) as a fueled interpreter: entering a gate advances the clock and
stamps it, a revisited gate returns at once, children are visited in
order with basic events stamped inline, and leaving the gate advances
the clock again for the exit stamp. -/
def atRun (t : ITree) : ℕ → ATCall → ATState → Option ATState
  | 0, _, _ => none
  | fuel + 1, .gate i, st =>
    match t.lookup i with
    | none => none
    | some g =>
      let p := visitG st.vg i (st.time + 1)
      let st1 : ATState := { st with time := st.time + 1, vg := p.1 }
      if p.2 then some st1
      else
        match atRun t fuel (.kids g.children) st1 with
        | none => none
        | some st2 =>
          let q := visitG st2.vg i (st2.time + 1)
          some { st2 with time := st2.time + 1, vg := q.1 }
  | _ + 1, .kids [], st => some st
  | fuel + 1, .kids (c :: rest), st =>
    if c.natAbs < t.topIndex then
      match st.vb.lookup c.natAbs with
      | none =>
        atRun t fuel (.kids rest)
          { st with time := st.time + 1,
                    vb := (c.natAbs, (st.time + 1, st.time + 1)) :: st.vb }
      | some p =>
        atRun t fuel (.kids rest)
          { st with time := st.time + 1,
                    vb := (c.natAbs, (p.1, st.time + 1)) :: st.vb }
    else
      match atRun t fuel (.gate c.natAbs) st with
      | none => none
      | some st1 => atRun t fuel (.kids rest) st1

/-- Gate and basic visit extrema of a subtree, as stored in the memo:
the pair is below the gate's enter stamp and above its last stamp,
bounds every descendant's first and last visit, and each bound is
attained at the gate itself or at a descendant. -/
def memoGood (t : ITree) (vb : ℕ → ℕ × ℕ) (vg : ℕ → ℕ × ℕ × ℕ)
    (j : ℕ) (mm : ℕ × ℕ) : Prop :=
  mm.1 ≤ (vg j).1 ∧ (vg j).2.2 ≤ mm.2 ∧
  (∀ d, Desc t j d → mm.1 ≤ firstV t vb vg d ∧ lastV t vb vg d ≤ mm.2) ∧
  (mm.1 = (vg j).1 ∨ ∃ d, Desc t j d ∧ mm.1 = firstV t vb vg d) ∧
  (mm.2 = (vg j).2.2 ∨ ∃ d, Desc t j d ∧ mm.2 = lastV t vb vg d)

/-- The independence property the detector is claimed to compute: every
descendant is first visited after the gate is entered and last visited
before the gate is exited. -/
def moduleChar (t : ITree) (vb : ℕ → ℕ × ℕ) (vg : ℕ → ℕ × ℕ × ℕ) (j : ℕ) : Prop :=
  ∀ d, Desc t j d → (vg j).1 < firstV t vb vg d ∧ lastV t vb vg d < (vg j).2.1

/-- The invariant of the memoized walk: every memo entry is a correct
subtree extremum pair, flagged gates are memoized, and a memoized gate
is flagged exactly when it has the independence property. -/
def fomInv (t : ITree) (vb : ℕ → ℕ × ℕ) (vg : ℕ → ℕ × ℕ × ℕ) (st : FOMState) : Prop :=
  (∀ e ∈ st.memo, memoGood t vb vg e.1 e.2) ∧
  (∀ j ∈ st.modules, ∃ mm, (j, mm) ∈ st.memo) ∧
  (∀ e ∈ st.memo, (e.1 ∈ st.modules ↔ moduleChar t vb vg e.1))

/-- The walk only adds memo entries and module flags. -/
def fomSub (st st2 : FOMState) : Prop :=
  (∀ e ∈ st.memo, e ∈ st2.memo) ∧ (∀ j ∈ st.modules, j ∈ st2.modules)

theorem lookup_none_not_mem {β : Type} {l : List (ℕ × β)} {k : ℕ}
    (h : l.lookup k = none) : ∀ v, (k, v) ∉ l := by
  intro v hv
  induction l with
  | nil => exact List.not_mem_nil _ hv
  | cons p rest ih =>
    rcases List.mem_cons.mp hv with he | hv2
    · subst he
      simp [List.lookup] at h
    · refine ih ?_ hv2
      cases hpk : (k == p.1) with
      | true =>
        obtain ⟨a, b⟩ := p
        simp only [List.lookup, hpk] at h
        exact Option.noConfusion h
      | false =>
        obtain ⟨a, b⟩ := p
        simp only [List.lookup, hpk] at h
        exact h

theorem Desc_iff {t : ITree} {i : ℕ} {d : ℤ} :
    Desc t i d ↔ ∃ g, t.lookup i = some g ∧ DescL t g.children d := by
  constructor
  · intro h
    cases h with
    | child hl hc => exact ⟨_, hl, _, hc, Or.inl rfl⟩
    | step hl hc htop hd => exact ⟨_, hl, _, hc, Or.inr ⟨htop, hd⟩⟩
  · rintro ⟨g, hl, c, hc, (rfl | ⟨htop, hd⟩)⟩
    · exact Desc.child hl hc
    · exact Desc.step hl hc htop hd

theorem desc_occurs {t : ITree} {i : ℕ} {d : ℤ} (h : Desc t i d) :
    d.natAbs < t.topIndex →
    ∃ q ∈ t.gates, ∃ c ∈ q.2.children, c.natAbs = d.natAbs := by
  induction h with
  | child hl hc =>
    intro hlt
    exact ⟨_, lookup_mem hl, _, hc, rfl⟩
  | step hl hc htop hd ih => exact ih

theorem desc_gate_mem {t : ITree} {rk : ℕ → ℕ}
    (hclosed : ∀ p ∈ t.gates, ∀ c ∈ p.2.children, ¬ c.natAbs < t.topIndex →
      (t.lookup c.natAbs).isSome = true)
    (hrank : ∀ p ∈ t.gates, ∀ c ∈ p.2.children, ¬ c.natAbs < t.topIndex →
      rk c.natAbs < rk p.1)
    {i : ℕ} {d : ℤ} (h : Desc t i d) :
    ¬ d.natAbs < t.topIndex →
    (t.lookup d.natAbs).isSome = true ∧ rk d.natAbs < rk i := by
  induction h with
  | child hl hc =>
    intro hd
    exact ⟨hclosed _ (lookup_mem hl) _ hc hd, hrank _ (lookup_mem hl) _ hc hd⟩
  | step hl hc htop hd2 ih =>
    intro hd
    obtain ⟨h1, h2⟩ := ih hd
    exact ⟨h1, lt_trans h2 (hrank _ (lookup_mem hl) _ hc htop)⟩

theorem fomRun_gate (t : ITree) (vb : ℕ → ℕ × ℕ) (vg : ℕ → ℕ × ℕ × ℕ)
    (fuel i : ℕ) (st : FOMState) :
    fomRun t vb vg (fuel + 1) (.gate i) st =
      match st.memo.lookup i with
      | some mm => some (st, mm)
      | none =>
        match t.lookup i with
        | none => none
        | some g =>
          match fomRun t vb vg fuel (.kids g.children (vg i).1 (vg i).2.1) st with
          | none => none
          | some (st1, mn, mx) =>
            let mods2 := if mn = (vg i).1 ∧ mx = (vg i).2.1 then i :: st1.modules
              else st1.modules
            let mx2 := if (vg i).2.2 > mx then (vg i).2.2 else mx
            some ({ memo := (i, (mn, mx2)) :: st1.memo, modules := mods2 }, mn, mx2) := rfl

theorem fomRun_nil (t : ITree) (vb : ℕ → ℕ × ℕ) (vg : ℕ → ℕ × ℕ × ℕ)
    (fuel : ℕ) (mn mx : ℕ) (st : FOMState) :
    fomRun t vb vg (fuel + 1) (.kids [] mn mx) st = some (st, mn, mx) := rfl

theorem fomRun_cons (t : ITree) (vb : ℕ → ℕ × ℕ) (vg : ℕ → ℕ × ℕ × ℕ)
    (fuel : ℕ) (c : ℤ) (rest : List ℤ) (mn mx : ℕ) (st : FOMState) :
    fomRun t vb vg (fuel + 1) (.kids (c :: rest) mn mx) st =
      (if c.natAbs < t.topIndex then
        fomRun t vb vg fuel
          (.kids rest (if (vb c.natAbs).1 < mn then (vb c.natAbs).1 else mn)
            (if (vb c.natAbs).2 > mx then (vb c.natAbs).2 else mx)) st
      else
        match fomRun t vb vg fuel (.gate c.natAbs) st with
        | none => none
        | some (st1, mnc, mxc) =>
          fomRun t vb vg fuel
            (.kids rest (if mnc < mn then mnc else mn)
              (if mxc > mx then mxc else mx)) st1) := rfl



theorem fomRun_post (t : ITree) (vb : ℕ → ℕ × ℕ) (vg : ℕ → ℕ × ℕ × ℕ) (rk : ℕ → ℕ)
    (hclosed : ∀ p ∈ t.gates, ∀ c ∈ p.2.children, ¬ c.natAbs < t.topIndex →
      (t.lookup c.natAbs).isSome = true)
    (hrank : ∀ p ∈ t.gates, ∀ c ∈ p.2.children, ¬ c.natAbs < t.topIndex →
      rk c.natAbs < rk p.1)
    (hgg : ∀ p ∈ t.gates, ∀ q ∈ t.gates, p.1 ≠ q.1 →
      (vg p.1).1 ≠ (vg q.1).1 ∧ (vg p.1).2.2 ≠ (vg q.1).2.1)
    (hgb : ∀ p ∈ t.gates, ∀ q ∈ t.gates, ∀ c ∈ q.2.children, c.natAbs < t.topIndex →
      (vb c.natAbs).1 ≠ (vg p.1).1 ∧ (vb c.natAbs).2 ≠ (vg p.1).2.1)
    (hvl : ∀ p ∈ t.gates, (vg p.1).2.1 ≤ (vg p.1).2.2) :
    ∀ fuel call st out, fomRun t vb vg fuel call st = some out →
      fomInv t vb vg st →
      fomInv t vb vg out.1 ∧ fomSub st out.1 ∧
      (match call with
       | .gate i => (i, out.2) ∈ out.1.memo ∧
           (∀ e ∈ out.1.memo, e ∉ st.memo → rk e.1 ≤ rk i)
       | .kids cs mn mx =>
           out.2.1 ≤ mn ∧ mx ≤ out.2.2 ∧
           (∀ d, DescL t cs d →
             out.2.1 ≤ firstV t vb vg d ∧ lastV t vb vg d ≤ out.2.2) ∧
           (out.2.1 = mn ∨ ∃ d, DescL t cs d ∧ out.2.1 = firstV t vb vg d) ∧
           (out.2.2 = mx ∨ ∃ d, DescL t cs d ∧ out.2.2 = lastV t vb vg d) ∧
           (∀ e ∈ out.1.memo, e ∉ st.memo →
             ∃ c ∈ cs, ¬ c.natAbs < t.topIndex ∧ rk e.1 ≤ rk c.natAbs)) := by
  intro fuel
  induction fuel with
  | zero =>
    intro call st out h _
    exact Option.noConfusion h
  | succ fuel ih =>
    intro call st out h hinv
    cases call with
    | gate i =>
      rw [fomRun_gate] at h
      cases hmemo : st.memo.lookup i with
      | some mm =>
        rw [hmemo] at h
        injection h with h
        subst h
        exact ⟨hinv, ⟨fun e he => he, fun j hj => hj⟩,
          lookup_mem hmemo, fun e he hne => absurd he hne⟩
      | none =>
        rw [hmemo] at h
        cases hlook : t.lookup i with
        | none =>
          simp only [hlook] at h
          exact Option.noConfusion h
        | some g =>
        simp only [hlook] at h
        cases hkids : fomRun t vb vg fuel (.kids g.children (vg i).1 (vg i).2.1) st with
        | none =>
          rw [hkids] at h
          exact Option.noConfusion h
        | some out1 =>
        obtain ⟨st1, mn, mx⟩ := out1
        simp only [hkids] at h
        injection h with h
        subst h
        obtain ⟨hinv1, hsub1, hmn_le, hmx_le, hbound, hattn, hattx, hnew1⟩ :=
          ih _ st (st1, mn, mx) hkids hinv
        simp only at hinv1 hsub1 hmn_le hmx_le hbound hattn hattx hnew1
        have hig : (i, g) ∈ t.gates := lookup_mem hlook
        have hinotmemo : ∀ mm2, (i, mm2) ∉ st.memo := lookup_none_not_mem hmemo
        have hinotst1 : ∀ mm2, (i, mm2) ∉ st1.memo := by
          intro mm2 hmm2
          by_cases hm : (i, mm2) ∈ st.memo
          · exact hinotmemo mm2 hm
          · obtain ⟨c, hc, hctop, hle⟩ := hnew1 (i, mm2) hmm2 hm
            exact absurd hle (not_le.mpr (hrank _ hig _ hc hctop))
        have hinotmods1 : i ∉ st1.modules := by
          intro hmods
          obtain ⟨mm2, hmm2⟩ := hinv1.2.1 i hmods
          exact hinotst1 mm2 hmm2
        have hdesc_iff : ∀ d, Desc t i d ↔ DescL t g.children d := by
          intro d
          constructor
          · intro hd
            obtain ⟨g2, hg2, hD⟩ := Desc_iff.mp hd
            rw [hlook] at hg2
            injection hg2 with hg2
            subst hg2
            exact hD
          · intro hD
            exact Desc_iff.mpr ⟨g, hlook, hD⟩
        have hmx_le_mx2 : mx ≤ (if (vg i).2.2 > mx then (vg i).2.2 else mx) := by
          by_cases hgt : (vg i).2.2 > mx
          · rw [if_pos hgt]
            omega
          · rw [if_neg hgt]
        have hlast_le_mx2 : (vg i).2.2 ≤ (if (vg i).2.2 > mx then (vg i).2.2 else mx) := by
          by_cases hgt : (vg i).2.2 > mx
          · rw [if_pos hgt]
          · rw [if_neg hgt]
            omega
        have hgood : memoGood t vb vg i (mn, if (vg i).2.2 > mx then (vg i).2.2 else mx) := by
          refine ⟨hmn_le, hlast_le_mx2, ?_, ?_, ?_⟩
          · intro d hd
            have hD := (hdesc_iff d).mp hd
            exact ⟨(hbound d hD).1, le_trans (hbound d hD).2 hmx_le_mx2⟩
          · rcases hattn with he | ⟨d, hD, he⟩
            · exact Or.inl he
            · exact Or.inr ⟨d, (hdesc_iff d).mpr hD, he⟩
          · by_cases hgt : (vg i).2.2 > mx
            · rw [if_pos hgt]
              exact Or.inl rfl
            · rw [if_neg hgt]
              rcases hattx with he | ⟨d, hD, he⟩
              · left
                have hex : (vg i).2.1 ≤ (vg i).2.2 := hvl _ hig
                omega
              · exact Or.inr ⟨d, (hdesc_iff d).mpr hD, he⟩
        have hflagiff :
            (i ∈ (if mn = (vg i).1 ∧ mx = (vg i).2.1 then i :: st1.modules
              else st1.modules)) ↔ moduleChar t vb vg i := by
          by_cases hflag : mn = (vg i).1 ∧ mx = (vg i).2.1
          · rw [if_pos hflag]
            constructor
            · intro _
              intro d hd
              have hD := (hdesc_iff d).mp hd
              obtain ⟨hf, hl⟩ := hbound d hD
              rw [hflag.1] at hf
              rw [hflag.2] at hl
              constructor
              · rcases lt_or_eq_of_le hf with hlt | heq
                · exact hlt
                · exfalso
                  by_cases hb : d.natAbs < t.topIndex
                  · obtain ⟨q, hq, c, hcq, hce⟩ := desc_occurs hd hb
                    refine (hgb (i, g) hig q hq c hcq (by rwa [hce])).1 ?_
                    rw [hce]
                    rw [firstV, if_pos hb] at heq
                    exact heq.symm
                  · obtain ⟨hsome, hrk⟩ := desc_gate_mem hclosed hrank hd hb
                    obtain ⟨gd, hgd⟩ := Option.isSome_iff_exists.mp hsome
                    have hne : d.natAbs ≠ i := by
                      intro he
                      rw [he] at hrk
                      exact lt_irrefl _ hrk
                    refine (hgg (d.natAbs, gd) (lookup_mem hgd) (i, g) hig hne).1 ?_
                    rw [firstV, if_neg hb] at heq
                    exact heq.symm
              · rcases lt_or_eq_of_le hl with hlt | heq
                · exact hlt
                · exfalso
                  by_cases hb : d.natAbs < t.topIndex
                  · obtain ⟨q, hq, c, hcq, hce⟩ := desc_occurs hd hb
                    refine (hgb (i, g) hig q hq c hcq (by rwa [hce])).2 ?_
                    rw [hce]
                    rw [lastV, if_pos hb] at heq
                    exact heq
                  · obtain ⟨hsome, hrk⟩ := desc_gate_mem hclosed hrank hd hb
                    obtain ⟨gd, hgd⟩ := Option.isSome_iff_exists.mp hsome
                    have hne : d.natAbs ≠ i := by
                      intro he
                      rw [he] at hrk
                      exact lt_irrefl _ hrk
                    refine (hgg (d.natAbs, gd) (lookup_mem hgd) (i, g) hig hne).2 ?_
                    rw [lastV, if_neg hb] at heq
                    exact heq
            · intro _
              exact List.mem_cons_self _ _
          · rw [if_neg hflag]
            constructor
            · intro hmem
              exact absurd hmem hinotmods1
            · intro hchar
              exfalso
              apply hflag
              constructor
              · rcases hattn with he | ⟨d, hD, he⟩
                · exact he
                · exfalso
                  have hd := (hdesc_iff d).mpr hD
                  have hlt := (hchar d hd).1
                  rw [← he] at hlt
                  exact absurd hmn_le (not_le.mpr hlt)
              · rcases hattx with he | ⟨d, hD, he⟩
                · exact he
                · exfalso
                  have hd := (hdesc_iff d).mpr hD
                  have hlt := (hchar d hd).2
                  rw [← he] at hlt
                  exact absurd hmx_le (not_le.mpr hlt)
        refine ⟨⟨?_, ?_, ?_⟩, ⟨?_, ?_⟩, List.mem_cons_self _ _, ?_⟩
        · intro e he
          rcases List.mem_cons.mp he with rfl | he2
          · exact hgood
          · exact hinv1.1 e he2
        · intro j hj
          by_cases hflag : mn = (vg i).1 ∧ mx = (vg i).2.1
          · rw [if_pos hflag] at hj
            rcases List.mem_cons.mp hj with rfl | hj2
            · exact ⟨_, List.mem_cons_self _ _⟩
            · obtain ⟨mm2, hmm2⟩ := hinv1.2.1 j hj2
              exact ⟨mm2, List.mem_cons_of_mem _ hmm2⟩
          · rw [if_neg hflag] at hj
            obtain ⟨mm2, hmm2⟩ := hinv1.2.1 j hj
            exact ⟨mm2, List.mem_cons_of_mem _ hmm2⟩
        · intro e he
          rcases List.mem_cons.mp he with rfl | he2
          · exact hflagiff
          · have hold := hinv1.2.2 e he2
            have hne : e.1 ≠ i := by
              intro heq
              refine hinotst1 e.2 ?_
              rw [← heq]
              exact he2
            by_cases hflag : mn = (vg i).1 ∧ mx = (vg i).2.1
            · rw [if_pos hflag]
              rw [← hold]
              constructor
              · intro hmem
                rcases List.mem_cons.mp hmem with heq | hm
                · exact absurd heq hne
                · exact hm
              · intro hm
                exact List.mem_cons_of_mem _ hm
            · rw [if_neg hflag]
              exact hold
        · intro e he
          exact List.mem_cons_of_mem _ (hsub1.1 e he)
        · intro j hj
          by_cases hflag : mn = (vg i).1 ∧ mx = (vg i).2.1
          · rw [if_pos hflag]
            exact List.mem_cons_of_mem _ (hsub1.2 j hj)
          · rw [if_neg hflag]
            exact hsub1.2 j hj
        · intro e he hne
          rcases List.mem_cons.mp he with rfl | he2
          · exact le_refl _
          · by_cases hm : e ∈ st.memo
            · exact absurd hm hne
            · obtain ⟨c, hc, hctop, hle⟩ := hnew1 e he2 hm
              exact le_trans hle (le_of_lt (hrank _ hig _ hc hctop))
    | kids cs mn mx =>
      cases cs with
      | nil =>
        rw [fomRun_nil] at h
        injection h with h
        subst h
        refine ⟨hinv, ⟨fun e he => he, fun j hj => hj⟩, le_refl _, le_refl _, ?_,
          Or.inl rfl, Or.inl rfl, ?_⟩
        · rintro d ⟨c, hc, _⟩
          exact absurd hc (List.not_mem_nil c)
        · intro e he hne
          exact absurd he hne
      | cons c rest =>
        rw [fomRun_cons] at h
        by_cases hb : c.natAbs < t.topIndex
        · rw [if_pos hb] at h
          obtain ⟨hinv2, hsub2, hle1, hle2, hbound2, hattn2, hattx2, hnew2⟩ :=
            ih _ st out h hinv
          have hmn1mn : (if (vb c.natAbs).1 < mn then (vb c.natAbs).1 else mn) ≤ mn := by
            by_cases hx : (vb c.natAbs).1 < mn
            · rw [if_pos hx]
              omega
            · rw [if_neg hx]
          have hmn1vb : (if (vb c.natAbs).1 < mn then (vb c.natAbs).1 else mn)
              ≤ (vb c.natAbs).1 := by
            by_cases hx : (vb c.natAbs).1 < mn
            · rw [if_pos hx]
            · rw [if_neg hx]
              omega
          have hmx1mx : mx ≤ (if (vb c.natAbs).2 > mx then (vb c.natAbs).2 else mx) := by
            by_cases hx : (vb c.natAbs).2 > mx
            · rw [if_pos hx]
              omega
            · rw [if_neg hx]
          have hmx1vb : (vb c.natAbs).2
              ≤ (if (vb c.natAbs).2 > mx then (vb c.natAbs).2 else mx) := by
            by_cases hx : (vb c.natAbs).2 > mx
            · rw [if_pos hx]
            · rw [if_neg hx]
              omega
          refine ⟨hinv2, hsub2, le_trans hle1 hmn1mn, le_trans hmx1mx hle2, ?_, ?_, ?_, ?_⟩
          · rintro d ⟨c2, hc2, hdisj⟩
            rcases List.mem_cons.mp hc2 with rfl | hc2r
            · rcases hdisj with rfl | ⟨htop2, _⟩
              · constructor
                · refine le_trans hle1 (le_trans hmn1vb ?_)
                  rw [firstV, if_pos hb]
                · refine le_trans ?_ (le_trans hmx1vb hle2)
                  rw [lastV, if_pos hb]
              · exact absurd hb htop2
            · exact hbound2 d ⟨c2, hc2r, hdisj⟩
          · rcases hattn2 with he | ⟨d, ⟨c2, hc2, hd2⟩, he⟩
            · by_cases hx : (vb c.natAbs).1 < mn
              · rw [if_pos hx] at he
                refine Or.inr ⟨c, ⟨c, List.mem_cons_self _ _, Or.inl rfl⟩, ?_⟩
                rw [firstV, if_pos hb]
                exact he
              · rw [if_neg hx] at he
                exact Or.inl he
            · exact Or.inr ⟨d, ⟨c2, List.mem_cons_of_mem _ hc2, hd2⟩, he⟩
          · rcases hattx2 with he | ⟨d, ⟨c2, hc2, hd2⟩, he⟩
            · by_cases hx : (vb c.natAbs).2 > mx
              · rw [if_pos hx] at he
                refine Or.inr ⟨c, ⟨c, List.mem_cons_self _ _, Or.inl rfl⟩, ?_⟩
                rw [lastV, if_pos hb]
                exact he
              · rw [if_neg hx] at he
                exact Or.inl he
            · exact Or.inr ⟨d, ⟨c2, List.mem_cons_of_mem _ hc2, hd2⟩, he⟩
          · intro e he hne
            obtain ⟨c2, hc2, htop2, hle⟩ := hnew2 e he hne
            exact ⟨c2, List.mem_cons_of_mem _ hc2, htop2, hle⟩
        · rw [if_neg hb] at h
          cases hg1 : fomRun t vb vg fuel (.gate c.natAbs) st with
          | none =>
            rw [hg1] at h
            exact Option.noConfusion h
          | some out1 =>
          obtain ⟨st1, mnc, mxc⟩ := out1
          simp only [hg1] at h
          obtain ⟨hinv1, hsub1, hmem1, hnew1g⟩ := ih _ st (st1, mnc, mxc) hg1 hinv
          simp only at hinv1 hsub1 hmem1 hnew1g
          have hgood1 : memoGood t vb vg c.natAbs (mnc, mxc) := hinv1.1 _ hmem1
          obtain ⟨hinv2, hsub2, hle1, hle2, hbound2, hattn2, hattx2, hnew2⟩ :=
            ih _ st1 out h hinv1
          have hmn1mn : (if mnc < mn then mnc else mn) ≤ mn := by
            by_cases hx : mnc < mn
            · rw [if_pos hx]
              omega
            · rw [if_neg hx]
          have hmn1c : (if mnc < mn then mnc else mn) ≤ mnc := by
            by_cases hx : mnc < mn
            · rw [if_pos hx]
            · rw [if_neg hx]
              omega
          have hmx1mx : mx ≤ (if mxc > mx then mxc else mx) := by
            by_cases hx : mxc > mx
            · rw [if_pos hx]
              omega
            · rw [if_neg hx]
          have hmx1c : mxc ≤ (if mxc > mx then mxc else mx) := by
            by_cases hx : mxc > mx
            · rw [if_pos hx]
            · rw [if_neg hx]
              omega
          refine ⟨hinv2, ⟨fun e he => hsub2.1 e (hsub1.1 e he),
            fun j hj => hsub2.2 j (hsub1.2 j hj)⟩,
            le_trans hle1 hmn1mn, le_trans hmx1mx hle2, ?_, ?_, ?_, ?_⟩
          · rintro d ⟨c2, hc2, hdisj⟩
            rcases List.mem_cons.mp hc2 with rfl | hc2r
            · rcases hdisj with rfl | ⟨htop2, hdesc⟩
              · constructor
                · refine le_trans hle1 (le_trans hmn1c ?_)
                  rw [firstV, if_neg hb]
                  exact hgood1.1
                · refine le_trans ?_ (le_trans hmx1c hle2)
                  rw [lastV, if_neg hb]
                  exact hgood1.2.1
              · have hbd := hgood1.2.2.1 d hdesc
                exact ⟨le_trans hle1 (le_trans hmn1c hbd.1),
                  le_trans hbd.2 (le_trans hmx1c hle2)⟩
            · exact hbound2 d ⟨c2, hc2r, hdisj⟩
          · rcases hattn2 with he | ⟨d, ⟨c2, hc2, hd2⟩, he⟩
            · by_cases hx : mnc < mn
              · rw [if_pos hx] at he
                rcases hgood1.2.2.2.1 with hc1 | ⟨d, hdesc, hde⟩
                · refine Or.inr ⟨c, ⟨c, List.mem_cons_self _ _, Or.inl rfl⟩, ?_⟩
                  rw [firstV, if_neg hb]
                  rw [he]
                  exact hc1
                · refine Or.inr ⟨d, ⟨c, List.mem_cons_self _ _, Or.inr ⟨hb, hdesc⟩⟩, ?_⟩
                  rw [he]
                  exact hde
              · rw [if_neg hx] at he
                exact Or.inl he
            · exact Or.inr ⟨d, ⟨c2, List.mem_cons_of_mem _ hc2, hd2⟩, he⟩
          · rcases hattx2 with he | ⟨d, ⟨c2, hc2, hd2⟩, he⟩
            · by_cases hx : mxc > mx
              · rw [if_pos hx] at he
                rcases hgood1.2.2.2.2 with hc1 | ⟨d, hdesc, hde⟩
                · refine Or.inr ⟨c, ⟨c, List.mem_cons_self _ _, Or.inl rfl⟩, ?_⟩
                  rw [lastV, if_neg hb]
                  rw [he]
                  exact hc1
                · refine Or.inr ⟨d, ⟨c, List.mem_cons_self _ _, Or.inr ⟨hb, hdesc⟩⟩, ?_⟩
                  rw [he]
                  exact hde
              · rw [if_neg hx] at he
                exact Or.inl he
            · exact Or.inr ⟨d, ⟨c2, List.mem_cons_of_mem _ hc2, hd2⟩, he⟩
          · intro e he hne
            by_cases hm1 : e ∈ st1.memo
            · exact ⟨c, List.mem_cons_self _ _, hb, hnew1g e hm1 hne⟩
            · obtain ⟨c2, hc2, htop2, hle⟩ := hnew2 e he hm1
              exact ⟨c2, List.mem_cons_of_mem _ hc2, htop2, hle⟩



/-- A concrete layered tree: the top gate 5 over gates 6 and 7, with
basic event 2 shared between 6 and 7. -/
def fomTree : ITree :=
  { gates := [(5, ⟨.kAnd, 2, 0, .normal, [6, 7]⟩),
              (6, ⟨.kOr, 1, 0, .normal, [1, 2]⟩),
              (7, ⟨.kAnd, 2, 0, .normal, [2, 3]⟩)],
    topIndex := 5, newGateIndex := 7 }

/-- The stamping state produced by the DFS timing pass on the tree. -/
def fomATOut : ATState :=
  ⟨10, [(3, (8, 8)), (2, (4, 7)), (2, (4, 4)), (1, (3, 3))],
       [(5, (1, 10, 10)), (7, (6, 9, 9)), (7, (6, 0, 6)),
        (6, (2, 5, 5)), (6, (2, 0, 2)), (5, (1, 0, 1))]⟩

/-- The basic-event visit table read off the stamping state. -/
def fomVB : ℕ → ℕ × ℕ := fun b => (fomATOut.vb.lookup b).getD (0, 0)

/-- The gate visit table read off the stamping state. -/
def fomVG : ℕ → ℕ × ℕ × ℕ := fun j => (fomATOut.vg.lookup j).getD (0, 0, 0)

/-- The detector's final state on the tree: all three gates memoized,
only the top gate flagged, because basic event 2 is shared. -/
def fomOut : FOMState :=
  ⟨[(5, (1, 10)), (7, (4, 9)), (6, (2, 7))], [5]⟩

/-- C7: a gate examined by the module detector is flagged as a module
exactly when every descendant is first visited strictly after the
gate's enter stamp and last visited strictly before its exit stamp,
given that the visit stamps of distinct nodes are distinct, gate edges
stay inside the tree, and the gate graph is acyclic. -/
theorem findOriginalModules_flags_iff (t : ITree) (vb : ℕ → ℕ × ℕ)
    (vg : ℕ → ℕ × ℕ × ℕ) (rk : ℕ → ℕ)
    (hclosed : ∀ p ∈ t.gates, ∀ c ∈ p.2.children, ¬ c.natAbs < t.topIndex →
      (t.lookup c.natAbs).isSome = true)
    (hrank : ∀ p ∈ t.gates, ∀ c ∈ p.2.children, ¬ c.natAbs < t.topIndex →
      rk c.natAbs < rk p.1)
    (hgg : ∀ p ∈ t.gates, ∀ q ∈ t.gates, p.1 ≠ q.1 →
      (vg p.1).1 ≠ (vg q.1).1 ∧ (vg p.1).2.2 ≠ (vg q.1).2.1)
    (hgb : ∀ p ∈ t.gates, ∀ q ∈ t.gates, ∀ c ∈ q.2.children, c.natAbs < t.topIndex →
      (vb c.natAbs).1 ≠ (vg p.1).1 ∧ (vb c.natAbs).2 ≠ (vg p.1).2.1)
    (hvl : ∀ p ∈ t.gates, (vg p.1).2.1 ≤ (vg p.1).2.2)
    (fuel root : ℕ) (stF : FOMState) (mn mx : ℕ)
    (hrun : fomRun t vb vg fuel (.gate root) ⟨[], []⟩ = some (stF, mn, mx)) :
    ∀ j mm, (j, mm) ∈ stF.memo →
      (j ∈ stF.modules ↔ ∀ d, Desc t j d →
        (vg j).1 < firstV t vb vg d ∧ lastV t vb vg d < (vg j).2.1) := by
  have h0 : fomInv t vb vg ⟨[], []⟩ :=
    ⟨fun e he => absurd he (List.not_mem_nil e),
     fun j hj => absurd hj (List.not_mem_nil j),
     fun e he => absurd he (List.not_mem_nil e)⟩
  obtain ⟨hinvF, _, _⟩ := fomRun_post t vb vg rk hclosed hrank hgg hgb hvl
    fuel (.gate root) ⟨[], []⟩ (stF, mn, mx) hrun h0
  intro j mm hmem
  exact hinvF.2.2 (j, mm) hmem

/-- C7 witness: the stamping pass and the detector on the concrete tree;
the top gate 5 is flagged, and the theorem yields the strict visit
bounds of its descendant basic event 2. -/
theorem findOriginalModules_flags_iff_witness :
    atRun fomTree 40 (.gate 5) ⟨0, [], []⟩ = some fomATOut ∧
    fomRun fomTree fomVB fomVG 40 (.gate 5) ⟨[], []⟩ = some (fomOut, 1, 10) ∧
    5 ∈ fomOut.modules ∧
    ((fomVG 5).1 < firstV fomTree fomVB fomVG 2 ∧
      lastV fomTree fomVB fomVG 2 < (fomVG 5).2.1) :=
  ⟨by decide, by decide, by decide,
    (findOriginalModules_flags_iff fomTree fomVB fomVG (fun j => 10 - j)
      (by decide) (by decide) (by decide) (by decide) (by decide)
      40 5 fomOut 1 10 (by decide) 5 (1, 10) (by decide)).mp (by decide) 2
      (@Desc.step fomTree 5 ⟨.kAnd, 2, 0, .normal, [6, 7]⟩ 6 2 (by decide) (by decide)
        (by decide) (@Desc.child fomTree 6 ⟨.kOr, 1, 0, .normal, [1, 2]⟩ 2 (by decide)
          (by decide)))⟩

end Scram
